import Mathlib

/-!
# goscrape: the asset download pass (scraper/download.go)

A shallow embedding of `downloadReferences`, `downloadAsset` and `cssProcessor`.

* Go strings are Lean strings; the substring operations work on their character lists.
* The collaborators held by the `Scraper` (eligibility policy, path derivation, existence
  check, transport, file writer, image recoder, stylesheet scanner, reference resolver) are
  fields of `Deps`. Those that can have effects thread an abstract world `W`.
* Every operation returns the error, the new scraper state and the list of collaborator
  calls it made, in order (`Outcome`).
* Log calls are not modelled.
* A `range` over a slice visits the slice as it is when the loop starts; a `range` over a
  map visits its entries in an order the runtime chooses (`Deps.rangeOrder`).
-/

set_option autoImplicit false

namespace Goscrape

/-! ## Data model -/

/-- The components of Go's `url.URL` through which the pass and its collaborators read a
URL. `downloadAsset` assigns only `Fragment`; the raw encodings (`RawPath`,
`RawFragment`) are not modelled, `String()` ignores a raw fragment that does not encode
`Fragment`. A `*url.URL` is held by value: the only write through the pointer is the
assignment `u.Fragment = ""`, which every later use of the URL repeats. -/
structure URL where
  Scheme : String
  Host : String
  Path : String
  RawQuery : String
  Fragment : String
deriving DecidableEq, Repr

/-- Go `error` values as far as the pass distinguishes them: `context.Canceled`, any other
leaf error, and an error wrapping another one (`fmt.Errorf("...: %w", err)`). -/
inductive Error where
  | canceled
  | other (msg : String)
  | wrap (msg : String) (inner : Error)
deriving DecidableEq, Repr

/-- The test `errors.Is(err, context.Canceled)`: follows the chain of wrapped errors. -/
def Error.isCanceled : Error → Bool
  | .canceled => true
  | .other _ => false
  | .wrap _ inner => inner.isCanceled

/-- The loop test `err != nil && errors.Is(err, context.Canceled)`. -/
def isCancel : Option Error → Bool
  | some err => err.isCanceled
  | none => false

/-- Modelled from the spec: the tag constants of package `htmlindex` (BodyTag, ImgTag,
LinkTag, ScriptTag, StyleTag), the fixed set of reference categories. -/
inductive Tag where
  | body
  | img
  | link
  | script
  | style
deriving DecidableEq, Repr

/-- Modelled from the spec: `htmlindex.Index`, of which the pass uses only
`URLs(tag)`, returning the ordered references of a category and an error. -/
structure Index where
  URLs : Tag → List URL × Option Error

/-- The values an `assetProcessor` variable takes in this file: `nil`,
`s.cssProcessor` and `s.checkImageForRecode`. -/
inductive assetProcessor where
  | nil
  | cssProcessor
  | checkImageForRecode
deriving DecidableEq, Repr

/-- One invocation of the callback that `css.Process` makes: the token value, the
reference text found in it and the reference resolved to a URL. -/
structure cssCall where
  tokenValue : String
  data : String
  u : URL
deriving DecidableEq, Repr

/-- What the pass does that is visible outside of it, in order. -/
inductive Event where
  | urls (tag : Tag)
  | asset (u : URL) (processor : assetProcessor)
  | policy (u : URL) (ok : Bool)
  | fileExists (filePath : String) (found : Bool)
  | fetch (u : URL) (err : Option Error)
  | queued (u : URL)
  | transform (processor : assetProcessor) (u : URL)
  | write (filePath : String) (buf : String) (err : Option Error)
deriving DecidableEq, Repr

/-- The collaborators and configuration of a `Scraper` that the pass calls but does not
define. `cssProcess` lists the callback invocations of `css.Process`; `rangeOrder` is the
order in which a `range` over a map with the given entries enumerates them, which may
change from one loop to the next. -/
structure Deps (W : Type) where
  siteURL : URL
  shouldURLBeDownloaded : W → URL → Nat → Bool → Bool × W
  getFilePath : URL → Bool → String
  fileExists : W → String → Bool
  httpDownloader : W → URL → Except Error String × W
  fileWriter : W → String → String → Option Error × W
  checkImageForRecode : W → URL → String → String × W
  cssProcess : URL → String → List cssCall
  resolveURL : URL → String → String → Bool → String → String
  pathDir : String → String
  rangeOrder : W → List (String × String) → List (String × String)

/-- The mutable part of a `Scraper`: the image queue, and the world its collaborators
act on. -/
structure Scraper (W : Type) where
  imagesQueue : List URL
  world : W

/-- Result of an operation: returned error, scraper afterwards, calls made. -/
structure Outcome (W : Type) where
  err : Option Error
  s : Scraper W
  events : List Event

/-! ## strings.ReplaceAll -/

/-- The scan of `strings.ReplaceAll` for a non-empty `old`: `skip` counts the characters
of a match still to be passed over. -/
def replaceGo (old new : List Char) : Nat → List Char → List Char
  | _, [] => []
  | skip + 1, _ :: cs => replaceGo old new skip cs
  | 0, c :: cs =>
    if old <+: c :: cs then new ++ replaceGo old new (old.length - 1) cs
    else c :: replaceGo old new 0 cs

/-- Go's `strings.ReplaceAll` on character lists: all non-overlapping instances of `old`,
found left to right, are replaced by `new`; an empty `old` matches at the beginning and
after every character. -/
def replaceAll (s old new : List Char) : List Char :=
  if old = [] then new ++ s.flatMap (fun c => c :: new)
  else replaceGo old new 0 s

/-- Go's `strings.ReplaceAll`. -/
def stringsReplaceAll (s old new : String) : String :=
  ⟨replaceAll s.data old.data new.data⟩

/-! ## cssProcessor -/

/-- The assignment `urls[k] = v` on a map kept as a list of entries with distinct keys. -/
def mapAssign (m : List (String × String)) (k v : String) : List (String × String) :=
  match m with
  | [] => [(k, v)]
  | e :: rest => if e.1 = k then (k, v) :: rest else e :: mapAssign rest k v

/-- The closure `processor` inside `cssProcessor`, acting on the queue and the map. -/
def cssCallback {W : Type} (d : Deps W) (st : List URL × List (String × String))
    (c : cssCall) : List URL × List (String × String) :=
  let cssPath : URL := { c.u with Path := d.pathDir c.u.Path ++ "/" }
  let resolved := d.resolveURL cssPath c.data d.siteURL.Host false ""
  (st.1 ++ [c.u], mapAssign st.2 c.tokenValue resolved)

/-- The local path the closure `processor` stores in the map for one callback. -/
def resolvedPath {W : Type} (d : Deps W) (c : cssCall) : String :=
  d.resolveURL { c.u with Path := d.pathDir c.u.Path ++ "/" } c.data d.siteURL.Host false ""

/-- The replacement loop of `cssProcessor` over the entries in the order given. -/
def cssRewrite (entries : List (String × String)) (str : String) : String :=
  entries.foldl (fun acc e => stringsReplaceAll acc e.1 ("url(" ++ e.2 ++ ")")) str

/-- The map `urls` that `cssProcessor` builds for a stylesheet. -/
def cssMapping {W : Type} (d : Deps W) (baseURL : URL) (buf : String) :
    List (String × String) :=
  ((d.cssProcess baseURL buf).foldl (cssCallback d) ([], [])).2

/-- The method `Scraper.cssProcessor`: returns the buffer to store, the scraper with the
grown queue, and one `queued` event per callback. -/
def cssProcessor {W : Type} (d : Deps W) (s : Scraper W) (baseURL : URL) (buf : String) :
    String × Scraper W × List Event :=
  let calls := d.cssProcess baseURL buf
  let st := calls.foldl (cssCallback d) (s.imagesQueue, [])
  let s1 : Scraper W := { s with imagesQueue := st.1 }
  let evs := calls.map (fun c => Event.queued c.u)
  if st.2.length = 0 then (buf, s1, evs)
  else (cssRewrite (d.rangeOrder s.world st.2) buf, s1, evs)

/-! ## downloadAsset -/

/-- The call `processor(u, buf)` guarded by `processor != nil`. -/
def applyProcessor {W : Type} (d : Deps W) (s : Scraper W) (processor : assetProcessor)
    (u : URL) (buf : String) : String × Scraper W × List Event :=
  match processor with
  | .nil => (buf, s, [])
  | .cssProcessor =>
    let r := cssProcessor d s u buf
    (r.1, r.2.1, Event.transform .cssProcessor u :: r.2.2)
  | .checkImageForRecode =>
    let r := d.checkImageForRecode s.world u buf
    (r.1, { s with world := r.2 }, [Event.transform .checkImageForRecode u])

/-- The method `Scraper.downloadAsset`. -/
def downloadAsset {W : Type} (d : Deps W) (s : Scraper W) (u : URL)
    (processor : assetProcessor) : Outcome W :=
  let u : URL := { u with Fragment := "" }
  let pol := d.shouldURLBeDownloaded s.world u 0 true
  if pol.1 = false then ⟨none, { s with world := pol.2 }, [.policy u false]⟩
  else
    let filePath := d.getFilePath u false
    if d.fileExists pol.2 filePath = true then
      ⟨none, { s with world := pol.2 }, [.policy u true, .fileExists filePath true]⟩
    else
      let dl := d.httpDownloader pol.2 u
      match dl.1 with
      | .error err =>
        ⟨some (.wrap "downloading asset" err), { s with world := dl.2 },
          [.policy u true, .fileExists filePath false, .fetch u (some err)]⟩
      | .ok buf =>
        let pr := applyProcessor d { s with world := dl.2 } processor u buf
        let wr := d.fileWriter pr.2.1.world filePath pr.1
        ⟨none, { pr.2.1 with world := wr.2 },
          [.policy u true, .fileExists filePath false, .fetch u none] ++ pr.2.2 ++
            [.write filePath pr.1 wr.1]⟩

/-! ## downloadReferences -/

/-- The declared order of the categories of the second phase. -/
def tagsWithReferences : List Tag := [.link, .script, .body, .style]

/-- A loop `for _, ur := range references` around `downloadAsset` that returns the error
as soon as it is a cancellation. -/
def downloadRange {W : Type} (d : Deps W) (processor : assetProcessor) :
    List URL → Scraper W → Outcome W
  | [], s => ⟨none, s, []⟩
  | ur :: rest, s =>
    let r := downloadAsset d s ur processor
    if isCancel r.err = true then ⟨r.err, r.s, Event.asset ur processor :: r.events⟩
    else
      let r2 := downloadRange d processor rest r.s
      ⟨r2.err, r2.s, Event.asset ur processor :: r.events ++ r2.events⟩

/-- The choice of `processor` in the body of the loop over the tags. -/
def processorFor (tag : Tag) : assetProcessor :=
  if tag = Tag.link then assetProcessor.cssProcessor else assetProcessor.nil

/-- The loop `for _, tag := range tagsWithReferences`. -/
def downloadTags {W : Type} (d : Deps W) (index : Index) :
    List Tag → Scraper W → Outcome W
  | [], s => ⟨none, s, []⟩
  | tag :: rest, s =>
    let references := (index.URLs tag).1
    let processor := processorFor tag
    let r := downloadRange d processor references s
    match r.err with
    | some err => ⟨some err, r.s, Event.urls tag :: r.events⟩
    | none =>
      let r2 := downloadTags d index rest r.s
      ⟨r2.err, r2.s, Event.urls tag :: r.events ++ r2.events⟩

/-- The method `Scraper.downloadReferences`. -/
def downloadReferences {W : Type} (d : Deps W) (s : Scraper W) (index : Index) :
    Outcome W :=
  let s1 : Scraper W := { s with imagesQueue := s.imagesQueue ++ (index.URLs .body).1 }
  let s2 : Scraper W := { s1 with imagesQueue := s1.imagesQueue ++ (index.URLs .img).1 }
  let r := downloadTags d index tagsWithReferences s2
  match r.err with
  | some err => ⟨some err, r.s, Event.urls .body :: Event.urls .img :: r.events⟩
  | none =>
    let q := downloadRange d .checkImageForRecode r.s.imagesQueue r.s
    match q.err with
    | some err =>
      ⟨some err, q.s, Event.urls .body :: Event.urls .img :: r.events ++ q.events⟩
    | none =>
      ⟨none, { q.s with imagesQueue := [] },
        Event.urls .body :: Event.urls .img :: r.events ++ q.events⟩

/-! ## The replacement loop seen run by run -/

/-- What one replace-all pass with key `T)` and replacement `R)` does to a run of
characters that ends right before a closing parenthesis. -/
def segRewrite (T R seg : List Char) : List Char :=
  if T <:+ seg then seg.take (seg.length - T.length) ++ R else seg

/-- A text put together from its runs between closing parentheses. -/
def unsplit : List (List Char) → List Char → List Char
  | [], tail => tail
  | x :: xs, tail => x ++ ')' :: unsplit xs tail

/-- The key of a mapping entry without its closing parenthesis. -/
def keyBody (k : String) : List Char := k.data.dropLast

/-- The replacement `url(p)` of a mapping entry without its closing parenthesis. -/
def fixedBody (p : String) : List Char := "url(".data ++ p.data

/-- The key ends in a closing parenthesis and has no other one; the local path has none. -/
@[reducible] def wellFormedEntry (e : String × String) : Prop :=
  e.1.data.getLast? = some ')' ∧ ')' ∉ keyBody e.1 ∧ ')' ∉ e.2.data

/-- No entry of the mapping interferes with another one: for entries with different keys,
the body of one key is not a suffix of the other replacement body or the other way
round, and is not a suffix of the other key body. -/
@[reducible] def Separated (m : List (String × String)) : Prop :=
  (∀ e ∈ m, wellFormedEntry e) ∧
  (∀ e ∈ m, ∀ e' ∈ m, e.1 ≠ e'.1 →
    ¬ keyBody e'.1 <:+ fixedBody e.2 ∧ ¬ fixedBody e.2 <:+ keyBody e'.1 ∧
    ¬ keyBody e.1 <:+ keyBody e'.1)

/-- The passes of all entries, in order, on one run between closing parentheses. -/
def segFold (es : List (String × String)) (x : List Char) : List Char :=
  es.foldl (fun acc e => segRewrite (keyBody e.1) (fixedBody e.2) acc) x

/-! ## Reading a trace -/

/-- A transport call that reported cancellation. -/
def cancelFetch : Event → Bool
  | .fetch _ (some err) => err.isCanceled
  | _ => false

/-- A transport call. -/
def isFetch : Event → Bool
  | .fetch _ _ => true
  | _ => false

/-- A call of the file writer. -/
def isWrite : Event → Bool
  | .write _ _ _ => true
  | _ => false

/-- The events a content transformer can emit. -/
def transformerEvent : Event → Bool
  | .transform _ _ => true
  | .queued _ => true
  | _ => false

/-- A collaborator call made for the asset `v`: the policy, the transport and the
transformer receive `v` itself, the existence check and the writer its derived path. -/
def concerns {W : Type} (d : Deps W) (v : URL) : Event → Bool
  | .policy u _ => u = v
  | .fileExists filePath _ => filePath = d.getFilePath v false
  | .fetch u _ => u = v
  | .transform _ u => u = v
  | .write filePath _ _ => filePath = d.getFilePath v false
  | .queued _ => true
  | .urls _ => false
  | .asset _ _ => false

/-- The invocations of the per-asset operation in a trace, with the transformer attached. -/
def assetCalls : List Event → List (URL × assetProcessor)
  | [] => []
  | .asset u p :: rest => (u, p) :: assetCalls rest
  | _ :: rest => assetCalls rest

/-- The URLs the stylesheet rewriter appended to the queue, in order. -/
def queuedURLs : List Event → List URL
  | [] => []
  | .queued u :: rest => u :: queuedURLs rest
  | _ :: rest => queuedURLs rest

/-- The per-asset invocations of the drain phase: those with the image recoder. -/
def drainCalls (evs : List Event) : List (URL × assetProcessor) :=
  (assetCalls evs).filter (fun c => c.2 = assetProcessor.checkImageForRecode)

/-- The per-asset invocations made before the drain phase. -/
def tagCalls (evs : List Event) : List (URL × assetProcessor) :=
  (assetCalls evs).filter (fun c => c.2 ≠ assetProcessor.checkImageForRecode)

/-- A trace in which a cancellation, if any, is reported by the last event, and is
reported exactly when the returned error is a cancellation. -/
def CancelInv {W : Type} (o : Outcome W) : Prop :=
  (isCancel o.err = false → ∀ e ∈ o.events, cancelFetch e = false) ∧
  (isCancel o.err = true →
    ∃ pre e, o.events = pre ++ [e] ∧ cancelFetch e = true ∧ ∀ x ∈ pre, cancelFetch x = false)

/-- Every transport call in the trace comes right after the policy accepted that URL and
the existence check found no file at its derived path. -/
def Guarded {W : Type} (d : Deps W) (evs : List Event) : Prop :=
  ∀ pre post v r, evs = pre ++ Event.fetch v r :: post →
    ∃ pre', pre = pre' ++
      [Event.policy v true, Event.fileExists (d.getFilePath v false) false]

/-! ## A concrete site -/

/-- Go's `path.Dir` on a path that is already clean. -/
def pathDir (p : String) : String :=
  let d := (p.data.reverse.dropWhile (fun c => c ≠ '/')).reverse
  let d := (d.reverse.dropWhile (fun c => c = '/')).reverse
  if p.data.all (fun c => c ≠ '/') then "." else if d = [] then "/" else ⟨d⟩

/-- The contents of the `url(...)` constructs of a stylesheet, left to right. -/
def scanURLs : List Char → List String
  | [] => []
  | 'u' :: 'r' :: 'l' :: '(' :: rest => ⟨rest.takeWhile (fun c => c ≠ ')')⟩ :: scanURLs rest
  | _ :: rest => scanURLs rest

/-- The callbacks of a scanner for a stylesheet in the root directory of its host: one per
`url(...)` construct, with the reference resolved against the stylesheet URL. -/
def scanCSS (baseURL : URL) (data : String) : List cssCall :=
  (scanURLs data.data).map (fun ref =>
    ⟨"url(" ++ ref ++ ")", ref,
      { baseURL with Path := if ref.data.head? = some '/' then ref else "/" ++ ref,
                     RawQuery := "", Fragment := "" }⟩)

/-- A mirror of `example.org` whose world is the list of the files on disk. The transport
reports cancellation for paths starting with `/cancel`, fails for the query `fail` and
serves one stylesheet; the writer refuses paths under `ro/`. Resolved references are kept
as written. -/
def site : Deps (List String) where
  siteURL := ⟨"http", "example.org", "/", "", ""⟩
  shouldURLBeDownloaded w u _ _ := (u.Host = "example.org", w)
  getFilePath u _ := "example.org" ++ u.Path
  fileExists w p := w.contains p
  httpDownloader w u :=
    if "/cancel".data <+: u.Path.data then (.error (.wrap "Get" .canceled), w)
    else if u.RawQuery = "fail" then (.error (.other "503"), w)
    else if u.Path = "/style.css" then (.ok "body{background:url(bg.png)}", w)
    else (.ok "data", w)
  fileWriter w p _ :=
    if "example.org/ro/".data <+: p.data then (some (.other "read-only"), w) else (none, p :: w)
  checkImageForRecode w _ buf := (buf, w)
  cssProcess := scanCSS
  resolveURL _ ref _ _ _ := ref
  pathDir := pathDir
  rangeOrder _ m := m

/-- The concrete site with a resolver that places every reference under `/assets/`. -/
def assets : Deps (List String) :=
  { site with resolveURL := fun _ ref _ _ _ => "/assets/" ++ ref }

/-- A URL of the concrete site. -/
def page (path : String) : URL := ⟨"http", "example.org", path, "", ""⟩

/-- A URL of the concrete site with a query. -/
def pageQuery (path query : String) : URL := ⟨"http", "example.org", path, query, ""⟩

/-- An index with the given references per category and no extraction error. -/
def indexOf (body img link script style : List URL) : Index where
  URLs
    | .body => (body, none)
    | .img => (img, none)
    | .link => (link, none)
    | .script => (script, none)
    | .style => (style, none)

/-- A page with one stylesheet, two scripts, one inline-style reference, one body
reference and one image. -/
def demoIndex : Index :=
  indexOf [page "/hero.jpg"] [page "/logo.png"] [page "/style.css"]
    [page "/a.js", page "/b.js"] [page "/font.woff"]

/-- A page whose second script is the asset on which the transport reports cancellation. -/
def cancelIndex : Index :=
  indexOf [page "/hero.jpg"] [page "/logo.png"] [page "/style.css"]
    [page "/a.js", page "/cancel.js", page "/b.js"] [page "/font.woff"]

/-- A scraper with an empty queue and an empty disk. -/
def fresh : Scraper (List String) := ⟨[], []⟩

/-! ## Lemmas on traces -/

variable {W : Type}

theorem assetCalls_append (a b : List Event) :
    assetCalls (a ++ b) = assetCalls a ++ assetCalls b := by
  induction a with
  | nil => rfl
  | cons e a ih => cases e <;> simp [assetCalls, ih]

theorem queuedURLs_append (a b : List Event) :
    queuedURLs (a ++ b) = queuedURLs a ++ queuedURLs b := by
  induction a with
  | nil => rfl
  | cons e a ih => cases e <;> simp [queuedURLs, ih]

theorem queuedURLs_map_queued (l : List cssCall) :
    queuedURLs (l.map (fun c => Event.queued c.u)) = l.map (fun c => c.u) := by
  induction l with
  | nil => rfl
  | cons c l ih => simp [queuedURLs, ih]

theorem cssCallback_foldl_fst (d : Deps W) (calls : List cssCall)
    (st : List URL × List (String × String)) :
    (calls.foldl (cssCallback d) st).1 = st.1 ++ calls.map (fun c => c.u) := by
  induction calls generalizing st with
  | nil => simp
  | cons c calls ih => simp [List.foldl, ih, cssCallback]

theorem cssProcessor_queue (d : Deps W) (s : Scraper W) (baseURL : URL) (buf : String) :
    (cssProcessor d s baseURL buf).2.1.imagesQueue =
      s.imagesQueue ++ (d.cssProcess baseURL buf).map (fun c => c.u) := by
  unfold cssProcessor
  simp only []
  split <;> simp [cssCallback_foldl_fst]

theorem cssProcessor_events (d : Deps W) (s : Scraper W) (baseURL : URL) (buf : String) :
    (cssProcessor d s baseURL buf).2.2 =
      (d.cssProcess baseURL buf).map (fun c => Event.queued c.u) := by
  unfold cssProcessor
  simp only []
  split <;> rfl


theorem applyProcessor_events (d : Deps W) (s : Scraper W) (p : assetProcessor) (u : URL)
    (buf : String) : ∀ e ∈ (applyProcessor d s p u buf).2.2, transformerEvent e = true := by
  cases p with
  | nil => simp [applyProcessor]
  | cssProcessor =>
    simp only [applyProcessor, cssProcessor_events]
    intro e he
    rcases List.mem_cons.1 he with rfl | he
    · rfl
    · obtain ⟨c, _, rfl⟩ := List.mem_map.1 he
      rfl
  | checkImageForRecode => simp [applyProcessor, transformerEvent]

/-- The four ways a call of `downloadAsset` can go. -/
theorem downloadAsset_shape (d : Deps W) (s : Scraper W) (u : URL) (p : assetProcessor) :
    let v : URL := { u with Fragment := "" }
    let o := downloadAsset d s u p
    (o.err = none ∧ o.events = [.policy v false]) ∨
    (o.err = none ∧ o.events = [.policy v true, .fileExists (d.getFilePath v false) true]) ∨
    (∃ err, o.err = some (.wrap "downloading asset" err) ∧
      o.events = [.policy v true, .fileExists (d.getFilePath v false) false,
        .fetch v (some err)]) ∨
    (∃ mid buf werr, o.err = none ∧
      o.events = [.policy v true, .fileExists (d.getFilePath v false) false,
        .fetch v none] ++ mid ++ [.write (d.getFilePath v false) buf werr] ∧
      ∀ e ∈ mid, transformerEvent e = true) := by
  intro v o
  show _ ∨ _ ∨ _ ∨ _
  simp only [o, downloadAsset]
  split
  · left; exact ⟨rfl, rfl⟩
  · split
    · right; left; exact ⟨rfl, rfl⟩
    · split
      · right; right; left; exact ⟨_, rfl, rfl⟩
      · right; right; right
        exact ⟨_, _, _, rfl, rfl, applyProcessor_events _ _ _ _ _⟩


theorem transformerEvent_not_fetch {e : Event} (h : transformerEvent e = true) :
    isFetch e = false := by
  cases e <;> simp_all [transformerEvent, isFetch]

theorem cancelFetch_isFetch {e : Event} (h : cancelFetch e = true) : isFetch e = true := by
  cases e <;> simp_all [cancelFetch, isFetch]

theorem Guarded_of_no_fetch (d : Deps W) (evs : List Event)
    (h : ∀ e ∈ evs, isFetch e = false) : Guarded d evs := by
  intro pre post v r hev
  have := h (Event.fetch v r) (by simp [hev])
  simp [isFetch] at this

theorem Guarded_append (d : Deps W) (a b : List Event) (ha : Guarded d a)
    (hb : Guarded d b) : Guarded d (a ++ b) := by
  intro pre post v r hev
  rcases List.append_eq_append_iff.1 hev with ⟨a', h1, h2⟩ | ⟨c', h1, h2⟩
  · obtain ⟨pre', hp⟩ := hb a' post v r h2
    exact ⟨a ++ pre', by simp [h1, hp]⟩
  · cases c' with
    | nil =>
      obtain ⟨pre', hp⟩ := hb [] post v r (by simpa using h2.symm)
      simp at hp
    | cons x c' =>
      simp only [List.cons_append, List.cons.injEq] at h2
      obtain ⟨rfl, rfl⟩ := h2
      exact ha pre _ v r h1

theorem Guarded_cons (d : Deps W) (e : Event) (evs : List Event) (he : isFetch e = false)
    (h : Guarded d evs) : Guarded d (e :: evs) :=
  Guarded_append d [e] evs (Guarded_of_no_fetch d [e] (by simpa using he)) h

theorem downloadAsset_guarded (d : Deps W) (s : Scraper W) (u : URL) (p : assetProcessor) :
    Guarded d (downloadAsset d s u p).events := by
  rcases downloadAsset_shape d s u p with ⟨_, h⟩ | ⟨_, h⟩ | ⟨err, _, h⟩ | ⟨mid, buf, werr, _, h, hm⟩
  · rw [h]; exact Guarded_of_no_fetch _ _ (by simp [isFetch])
  · rw [h]; exact Guarded_of_no_fetch _ _ (by simp [isFetch])
  · rw [h]
    intro pre post v r hev
    match pre, hev with
    | [], hev => simp at hev
    | [_], hev => simp at hev
    | [_, _], hev =>
      simp only [List.cons_append, List.nil_append, List.cons.injEq, Event.fetch.injEq] at hev
      obtain ⟨rfl, rfl, ⟨rfl, _⟩, _⟩ := hev
      exact ⟨[], rfl⟩
    | _ :: _ :: _ :: pre, hev => simp at hev
  · rw [h]
    intro pre post v r hev
    match pre, hev with
    | [], hev => simp at hev
    | [_], hev => simp at hev
    | [_, _], hev =>
      simp only [List.cons_append, List.nil_append, List.cons.injEq, Event.fetch.injEq] at hev
      obtain ⟨rfl, rfl, ⟨rfl, _⟩, _⟩ := hev
      exact ⟨[], rfl⟩
    | a :: b :: c :: pre, hev =>
      exfalso
      simp only [List.cons_append, List.nil_append, List.cons.injEq] at hev
      obtain ⟨_, _, _, hev⟩ := hev
      have hmem : Event.fetch v r ∈ mid ++ [Event.write (d.getFilePath { u with Fragment := "" } false) buf werr] := by
        rw [hev]; simp
      rcases List.mem_append.1 hmem with h1 | h1
      · have := transformerEvent_not_fetch (hm _ h1)
        simp [isFetch] at this
      · simp at h1

theorem downloadAsset_cancelInv (d : Deps W) (s : Scraper W) (u : URL) (p : assetProcessor) :
    CancelInv (downloadAsset d s u p) := by
  rcases downloadAsset_shape d s u p with ⟨he, h⟩ | ⟨he, h⟩ | ⟨err, he, h⟩ | ⟨mid, buf, werr, he, h, hm⟩
  · constructor
    · intro _ e hmem; rw [h] at hmem; simp at hmem; subst hmem; rfl
    · intro hc; rw [he] at hc; simp [isCancel] at hc
  · constructor
    · intro _ e hmem; rw [h] at hmem; simp at hmem; rcases hmem with rfl | rfl <;> rfl
    · intro hc; rw [he] at hc; simp [isCancel] at hc
  · constructor
    · intro hc e hmem
      rw [he] at hc
      rw [h] at hmem; simp at hmem
      rcases hmem with rfl | rfl | rfl
      · rfl
      · rfl
      · simpa [isCancel, Error.isCanceled, cancelFetch] using hc
    · intro hc
      rw [he] at hc
      refine ⟨[_, _], _, h, ?_, ?_⟩
      · simpa [isCancel, Error.isCanceled, cancelFetch] using hc
      · intro x hx; simp at hx; rcases hx with rfl | rfl <;> rfl
  · constructor
    · intro _ e hmem
      rw [h] at hmem; simp at hmem
      rcases hmem with rfl | rfl | rfl | h1 | rfl
      · rfl
      · rfl
      · rfl
      · have := transformerEvent_not_fetch (hm _ h1)
        cases hcf : cancelFetch e
        · rfl
        · rw [cancelFetch_isFetch hcf] at this; simp at this
      · rfl
    · intro hc; rw [he] at hc; simp [isCancel] at hc


theorem assetCalls_of_transformer (evs : List Event)
    (h : ∀ e ∈ evs, transformerEvent e = true) : assetCalls evs = [] := by
  induction evs with
  | nil => rfl
  | cons e evs ih =>
    have he := h e (by simp)
    have := ih (fun x hx => h x (by simp [hx]))
    cases e <;> simp_all [assetCalls, transformerEvent]

theorem downloadAsset_assetCalls (d : Deps W) (s : Scraper W) (u : URL) (p : assetProcessor) :
    assetCalls (downloadAsset d s u p).events = [] := by
  rcases downloadAsset_shape d s u p with ⟨_, h⟩ | ⟨_, h⟩ | ⟨err, _, h⟩ | ⟨mid, buf, werr, _, h, hm⟩
  · rw [h]; rfl
  · rw [h]; rfl
  · rw [h]; rfl
  · rw [h]
    simp [assetCalls_append, assetCalls, assetCalls_of_transformer mid hm]

theorem applyProcessor_queue (d : Deps W) (s : Scraper W) (p : assetProcessor) (u : URL)
    (buf : String) :
    (applyProcessor d s p u buf).2.1.imagesQueue =
      s.imagesQueue ++ queuedURLs (applyProcessor d s p u buf).2.2 := by
  cases p with
  | nil => simp [applyProcessor, queuedURLs]
  | cssProcessor =>
    simp [applyProcessor, cssProcessor_queue, cssProcessor_events, queuedURLs,
      queuedURLs_map_queued]
  | checkImageForRecode => simp [applyProcessor, queuedURLs]

theorem applyProcessor_not_css (d : Deps W) (s : Scraper W) (p : assetProcessor) (u : URL)
    (buf : String) (hp : p ≠ .cssProcessor) :
    queuedURLs (applyProcessor d s p u buf).2.2 = [] := by
  cases p with
  | nil => simp [applyProcessor, queuedURLs]
  | cssProcessor => exact absurd rfl hp
  | checkImageForRecode => simp [applyProcessor, queuedURLs]

theorem downloadAsset_queue (d : Deps W) (s : Scraper W) (u : URL) (p : assetProcessor) :
    (downloadAsset d s u p).s.imagesQueue =
      s.imagesQueue ++ queuedURLs (downloadAsset d s u p).events := by
  simp only [downloadAsset]
  split
  · simp [queuedURLs]
  · split
    · simp [queuedURLs]
    · split
      · simp [queuedURLs]
      · simp [queuedURLs, queuedURLs_append, applyProcessor_queue]

theorem downloadAsset_not_css (d : Deps W) (s : Scraper W) (u : URL) (p : assetProcessor)
    (hp : p ≠ .cssProcessor) : queuedURLs (downloadAsset d s u p).events = [] := by
  simp only [downloadAsset]
  split
  · simp [queuedURLs]
  · split
    · simp [queuedURLs]
    · split
      · simp [queuedURLs]
      · simp [queuedURLs, queuedURLs_append, applyProcessor_not_css _ _ _ _ _ hp]

theorem CancelInv_prepend (a : List Event) (o : Outcome W) (s' : Scraper W)
    (ha : ∀ e ∈ a, cancelFetch e = false) (h : CancelInv o) :
    CancelInv ⟨o.err, s', a ++ o.events⟩ := by
  constructor
  · intro hc e he
    rcases List.mem_append.1 he with h1 | h1
    · exact ha e h1
    · exact h.1 hc e h1
  · intro hc
    obtain ⟨pre, e, h1, h2, h3⟩ := h.2 hc
    refine ⟨a ++ pre, e, by simp [h1], h2, ?_⟩
    intro x hx
    rcases List.mem_append.1 hx with h4 | h4
    · exact ha x h4
    · exact h3 x h4

/-! ### The loop over one list of references -/

theorem downloadRange_cancelInv (d : Deps W) (p : assetProcessor) (l : List URL)
    (s : Scraper W) : CancelInv (downloadRange d p l s) := by
  induction l generalizing s with
  | nil => exact ⟨fun _ e he => by simp [downloadRange] at he, fun h => by simp [downloadRange, isCancel] at h⟩
  | cons ur rest ih =>
    simp only [downloadRange]
    split
    · rename_i hc
      have := CancelInv_prepend [Event.asset ur p] (downloadAsset d s ur p)
        (downloadAsset d s ur p).s (by simp [cancelFetch]) (downloadAsset_cancelInv d s ur p)
      simpa using this
    · rename_i hc
      have hna : ∀ e ∈ Event.asset ur p :: (downloadAsset d s ur p).events,
          cancelFetch e = false := by
        intro e he
        rcases List.mem_cons.1 he with rfl | he
        · rfl
        · exact (downloadAsset_cancelInv d s ur p).1 (by simpa using hc) e he
      have := CancelInv_prepend _ (downloadRange d p rest (downloadAsset d s ur p).s)
        (downloadRange d p rest (downloadAsset d s ur p).s).s hna (ih _)
      simpa using this

theorem downloadRange_err (d : Deps W) (p : assetProcessor) (l : List URL) (s : Scraper W) :
    (downloadRange d p l s).err = none ∨ isCancel (downloadRange d p l s).err = true := by
  induction l generalizing s with
  | nil => left; rfl
  | cons ur rest ih =>
    simp only [downloadRange]
    split
    · rename_i hc; right; exact hc
    · exact ih _

theorem downloadRange_assetCalls (d : Deps W) (p : assetProcessor) (l : List URL)
    (s : Scraper W) (h : (downloadRange d p l s).err = none) :
    assetCalls (downloadRange d p l s).events = l.map (fun u => (u, p)) := by
  induction l generalizing s with
  | nil => rfl
  | cons ur rest ih =>
    simp only [downloadRange] at h ⊢
    split at h
    · rename_i hc
      rw [h] at hc; simp [isCancel] at hc
    · rename_i hc
      simp only [hc]
      simp [assetCalls, assetCalls_append, downloadAsset_assetCalls, ih _ h]

theorem downloadRange_queue (d : Deps W) (p : assetProcessor) (l : List URL)
    (s : Scraper W) :
    (downloadRange d p l s).s.imagesQueue =
      s.imagesQueue ++ queuedURLs (downloadRange d p l s).events := by
  induction l generalizing s with
  | nil => simp [downloadRange, queuedURLs]
  | cons ur rest ih =>
    simp only [downloadRange]
    split
    · simp [queuedURLs, downloadAsset_queue]
    · simp [queuedURLs, queuedURLs_append, ih, downloadAsset_queue]

theorem downloadRange_not_css (d : Deps W) (p : assetProcessor) (l : List URL)
    (s : Scraper W) (hp : p ≠ .cssProcessor) :
    queuedURLs (downloadRange d p l s).events = [] := by
  induction l generalizing s with
  | nil => simp [downloadRange, queuedURLs]
  | cons ur rest ih =>
    simp only [downloadRange]
    split
    · simp [queuedURLs, downloadAsset_not_css _ _ _ _ hp]
    · simp [queuedURLs, queuedURLs_append, ih, downloadAsset_not_css _ _ _ _ hp]

theorem downloadRange_guarded (d : Deps W) (p : assetProcessor) (l : List URL)
    (s : Scraper W) : Guarded d (downloadRange d p l s).events := by
  induction l generalizing s with
  | nil => exact Guarded_of_no_fetch _ _ (by simp [downloadRange])
  | cons ur rest ih =>
    simp only [downloadRange]
    split
    · exact Guarded_cons _ _ _ rfl (downloadAsset_guarded _ _ _ _)
    · exact Guarded_cons _ _ _ rfl (Guarded_append _ _ _ (downloadAsset_guarded _ _ _ _) (ih _))


/-! ### The loop over the tags -/

theorem downloadTags_cancelInv (d : Deps W) (index : Index) (tags : List Tag)
    (s : Scraper W) : CancelInv (downloadTags d index tags s) := by
  induction tags generalizing s with
  | nil => exact ⟨fun _ e he => by simp [downloadTags] at he, fun h => by simp [downloadTags, isCancel] at h⟩
  | cons tag rest ih =>
    simp only [downloadTags]
    split
    · rename_i err he
      have := CancelInv_prepend [Event.urls tag] _
        (downloadRange d (processorFor tag) (index.URLs tag).1 s).s (by simp [cancelFetch])
        (downloadRange_cancelInv d (processorFor tag) (index.URLs tag).1 s)
      simpa [he] using this
    · rename_i he
      have hna : ∀ e ∈ Event.urls tag ::
          (downloadRange d (processorFor tag) (index.URLs tag).1 s).events,
          cancelFetch e = false := by
        intro e hmem
        rcases List.mem_cons.1 hmem with rfl | hmem
        · rfl
        · exact (downloadRange_cancelInv d _ _ s).1 (by simp [he, isCancel]) e hmem
      have := CancelInv_prepend _ _
        (downloadTags d index rest (downloadRange d (processorFor tag) (index.URLs tag).1 s).s).s
        hna (ih (downloadRange d (processorFor tag) (index.URLs tag).1 s).s)
      simpa using this

theorem downloadTags_err (d : Deps W) (index : Index) (tags : List Tag) (s : Scraper W) :
    (downloadTags d index tags s).err = none ∨
      isCancel (downloadTags d index tags s).err = true := by
  induction tags generalizing s with
  | nil => left; rfl
  | cons tag rest ih =>
    simp only [downloadTags]
    split
    · rename_i err he
      right
      rcases downloadRange_err d (processorFor tag) (index.URLs tag).1 s with h | h
      · rw [h] at he; cases he
      · simpa [he] using h
    · exact ih _

theorem downloadTags_assetCalls (d : Deps W) (index : Index) (tags : List Tag)
    (s : Scraper W) (h : (downloadTags d index tags s).err = none) :
    assetCalls (downloadTags d index tags s).events =
      tags.flatMap (fun tag => (index.URLs tag).1.map (fun u => (u, processorFor tag))) := by
  induction tags generalizing s with
  | nil => rfl
  | cons tag rest ih =>
    simp only [downloadTags] at h ⊢
    split at h
    · cases h
    · rename_i he
      simp only [he]
      simp [assetCalls, assetCalls_append, downloadRange_assetCalls _ _ _ _ he, ih _ h]

theorem downloadTags_queue (d : Deps W) (index : Index) (tags : List Tag) (s : Scraper W) :
    (downloadTags d index tags s).s.imagesQueue =
      s.imagesQueue ++ queuedURLs (downloadTags d index tags s).events := by
  induction tags generalizing s with
  | nil => simp [downloadTags, queuedURLs]
  | cons tag rest ih =>
    simp only [downloadTags]
    split
    · simp [queuedURLs, downloadRange_queue]
    · simp [queuedURLs, queuedURLs_append, ih, downloadRange_queue]

theorem downloadTags_guarded (d : Deps W) (index : Index) (tags : List Tag)
    (s : Scraper W) : Guarded d (downloadTags d index tags s).events := by
  induction tags generalizing s with
  | nil => exact Guarded_of_no_fetch _ _ (by simp [downloadTags])
  | cons tag rest ih =>
    simp only [downloadTags]
    split
    · exact Guarded_cons _ _ _ rfl (downloadRange_guarded _ _ _ _)
    · exact Guarded_cons _ _ _ rfl (Guarded_append _ _ _ (downloadRange_guarded _ _ _ _) (ih _))

/-! ### The whole pass -/

theorem downloadReferences_cancelInv (d : Deps W) (s : Scraper W) (index : Index) :
    CancelInv (downloadReferences d s index) := by
  simp only [downloadReferences]
  generalize ({ imagesQueue := s.imagesQueue ++ (index.URLs Tag.body).1 ++
    (index.URLs Tag.img).1, world := s.world } : Scraper W) = s2
  have hr := downloadTags_cancelInv d index tagsWithReferences s2
  generalize downloadTags d index tagsWithReferences s2 = r at hr ⊢
  obtain ⟨rerr, rs, revs⟩ := r
  cases rerr with
  | some err =>
    exact CancelInv_prepend [Event.urls .body, Event.urls .img] _ rs
      (by simp [cancelFetch]) hr
  | none =>
    have hna : ∀ e ∈ Event.urls .body :: Event.urls .img :: revs, cancelFetch e = false := by
      intro e hmem
      rcases List.mem_cons.1 hmem with rfl | hmem
      · rfl
      rcases List.mem_cons.1 hmem with rfl | hmem
      · rfl
      exact hr.1 rfl e hmem
    have hq := downloadRange_cancelInv d .checkImageForRecode rs.imagesQueue rs
    simp only []
    generalize downloadRange d .checkImageForRecode rs.imagesQueue rs = q at hq ⊢
    obtain ⟨qerr, qs, qevs⟩ := q
    cases qerr with
    | some err => exact CancelInv_prepend _ _ qs hna hq
    | none => exact CancelInv_prepend _ _ { qs with imagesQueue := [] } hna hq

theorem downloadReferences_err (d : Deps W) (s : Scraper W) (index : Index) :
    (downloadReferences d s index).err = none ∨
      isCancel (downloadReferences d s index).err = true := by
  simp only [downloadReferences]
  generalize ({ imagesQueue := s.imagesQueue ++ (index.URLs Tag.body).1 ++
    (index.URLs Tag.img).1, world := s.world } : Scraper W) = s2
  have hr := downloadTags_err d index tagsWithReferences s2
  generalize downloadTags d index tagsWithReferences s2 = r at hr ⊢
  obtain ⟨rerr, rs, revs⟩ := r
  cases rerr with
  | some err => right; simpa using hr
  | none =>
    have hq := downloadRange_err d .checkImageForRecode rs.imagesQueue rs
    simp only []
    generalize downloadRange d .checkImageForRecode rs.imagesQueue rs = q at hq ⊢
    obtain ⟨qerr, qs, qevs⟩ := q
    cases qerr with
    | some err => right; simpa using hq
    | none => left; rfl

theorem downloadReferences_guarded (d : Deps W) (s : Scraper W) (index : Index) :
    Guarded d (downloadReferences d s index).events := by
  simp only [downloadReferences]
  generalize ({ imagesQueue := s.imagesQueue ++ (index.URLs Tag.body).1 ++
    (index.URLs Tag.img).1, world := s.world } : Scraper W) = s2
  have hr := downloadTags_guarded d index tagsWithReferences s2
  generalize downloadTags d index tagsWithReferences s2 = r at hr ⊢
  obtain ⟨rerr, rs, revs⟩ := r
  cases rerr with
  | some err => exact Guarded_cons _ _ _ rfl (Guarded_cons _ _ _ rfl hr)
  | none =>
    have hq := downloadRange_guarded d .checkImageForRecode rs.imagesQueue rs
    simp only []
    generalize downloadRange d .checkImageForRecode rs.imagesQueue rs = q at hq ⊢
    obtain ⟨qerr, qs, qevs⟩ := q
    cases qerr with
    | some err =>
      exact Guarded_cons _ _ _ rfl (Guarded_cons _ _ _ rfl (Guarded_append _ _ _ hr hq))
    | none =>
      exact Guarded_cons _ _ _ rfl (Guarded_cons _ _ _ rfl (Guarded_append _ _ _ hr hq))

/-- A pass that returns nil leaves the queue empty. -/
theorem downloadReferences_queue_cleared (d : Deps W) (s : Scraper W) (index : Index)
    (h : (downloadReferences d s index).err = none) :
    (downloadReferences d s index).s.imagesQueue = [] := by
  simp only [downloadReferences] at h ⊢
  generalize downloadTags d index tagsWithReferences
    ⟨s.imagesQueue ++ (index.URLs .body).1 ++ (index.URLs .img).1, s.world⟩ = r at h ⊢
  obtain ⟨rerr, rs, revs⟩ := r
  cases rerr with
  | some err => simp at h
  | none =>
    simp only [] at h ⊢
    generalize downloadRange d .checkImageForRecode rs.imagesQueue rs = q at h ⊢
    obtain ⟨qerr, qs, qevs⟩ := q
    cases qerr with
    | some err => simp at h
    | none => rfl

/-- The invocations of the per-asset operation made by a pass that returns nil: the tags
in their declared order, then the queue as it stands after them. -/
theorem downloadReferences_assetCalls (d : Deps W) (s : Scraper W) (index : Index)
    (h : (downloadReferences d s index).err = none) :
    assetCalls (downloadReferences d s index).events =
      tagsWithReferences.flatMap
          (fun tag => (index.URLs tag).1.map (fun u => (u, processorFor tag))) ++
        (s.imagesQueue ++ (index.URLs .body).1 ++ (index.URLs .img).1 ++
          queuedURLs (downloadReferences d s index).events).map
            (fun u => (u, assetProcessor.checkImageForRecode)) := by
  simp only [downloadReferences] at h ⊢
  have hr := downloadTags_assetCalls d index tagsWithReferences
    ⟨s.imagesQueue ++ (index.URLs .body).1 ++ (index.URLs .img).1, s.world⟩
  have hrq := downloadTags_queue d index tagsWithReferences
    ⟨s.imagesQueue ++ (index.URLs .body).1 ++ (index.URLs .img).1, s.world⟩
  generalize downloadTags d index tagsWithReferences
    ⟨s.imagesQueue ++ (index.URLs .body).1 ++ (index.URLs .img).1, s.world⟩ = r at hr hrq h ⊢
  obtain ⟨rerr, rs, revs⟩ := r
  cases rerr with
  | some err => simp at h
  | none =>
    have hq := downloadRange_assetCalls d .checkImageForRecode rs.imagesQueue rs
    have hqq := downloadRange_not_css d .checkImageForRecode rs.imagesQueue rs (by simp)
    simp only [] at h ⊢
    generalize downloadRange d .checkImageForRecode rs.imagesQueue rs = q at hq hqq h ⊢
    obtain ⟨qerr, qs, qevs⟩ := q
    cases qerr with
    | some err => simp at h
    | none =>
      simp only [] at hr hrq hq hqq
      have e1 := hr trivial
      have e2 := hq trivial
      show assetCalls (Event.urls .body :: Event.urls .img :: (revs ++ qevs)) = _ ++
        List.map _ (_ ++ queuedURLs (Event.urls .body :: Event.urls .img :: (revs ++ qevs)))
      simp only [assetCalls, queuedURLs, assetCalls_append, queuedURLs_append, e1, e2,
        hqq, hrq, List.append_nil]

/-! ## Properties of the pass -/

/-- C1 (cancellation short-circuit): in every pass, if some transport call reports
cancellation, that call is the last thing the pass does: no later asset, category or queue
entry reaches the policy, the transport or the writer, and the pass returns an
error for which `errors.Is(err, context.Canceled)` holds. -/
theorem cancellation_short_circuit (d : Deps W) (s : Scraper W) (index : Index)
    (pre post : List Event) (u : URL) (err : Error)
    (hev : (downloadReferences d s index).events = pre ++ Event.fetch u (some err) :: post)
    (hc : err.isCanceled = true) :
    post = [] ∧ ∃ e, (downloadReferences d s index).err = some e ∧ e.isCanceled = true := by
  have inv := downloadReferences_cancelInv d s index
  have hmem : Event.fetch u (some err) ∈ (downloadReferences d s index).events := by
    rw [hev]; simp
  have hcf : cancelFetch (Event.fetch u (some err)) = true := hc
  have hcan : isCancel (downloadReferences d s index).err = true := by
    cases h : isCancel (downloadReferences d s index).err
    · have := inv.1 h _ hmem
      rw [hcf] at this; cases this
    · rfl
  obtain ⟨pre', e', h1, _, h3⟩ := inv.2 hcan
  constructor
  · rw [hev] at h1
    rcases List.eq_nil_or_concat post with hp | ⟨post', x, hp⟩
    · exact hp
    · exfalso
      rw [hp, List.concat_eq_append] at h1
      have h4 : (pre ++ Event.fetch u (some err) :: post') ++ [x] = pre' ++ [e'] := by
        rw [← h1]; simp
      have h5 := (List.append_inj' h4 rfl).1
      have := h3 (Event.fetch u (some err)) (by rw [← h5]; simp)
      rw [hcf] at this; cases this
  · cases he : (downloadReferences d s index).err with
    | none => rw [he] at hcan; cases hcan
    | some e => exact ⟨e, rfl, by simpa [he, isCancel] using hcan⟩

/-- Witness of C1: on the concrete site the transport cancels on the second script. -/
theorem cancellation_short_circuit_witness :
    ((downloadReferences site fresh cancelIndex).events =
        (downloadReferences site fresh cancelIndex).events.take 19 ++
          Event.fetch (page "/cancel.js") (some (.wrap "Get" .canceled)) :: [] ∧
      (Error.wrap "Get" .canceled).isCanceled = true) ∧
    ([] = ([] : List Event) ∧
      ∃ e, (downloadReferences site fresh cancelIndex).err = some e ∧ e.isCanceled = true) :=
  ⟨by decide, cancellation_short_circuit site fresh cancelIndex
    ((downloadReferences site fresh cancelIndex).events.take 19) []
    (page "/cancel.js") (.wrap "Get" .canceled) (by decide) (by decide)⟩

/-- C2 (best-effort pass): if no transport call of a pass reports cancellation, the pass
returns nil and invokes the per-asset operation on every URL of every category (in the
declared order of the categories) and then on every queue entry, whatever the index,
the transport and the writer otherwise report. -/
theorem best_effort_pass (d : Deps W) (s : Scraper W) (index : Index)
    (h : ∀ e ∈ (downloadReferences d s index).events, cancelFetch e = false) :
    (downloadReferences d s index).err = none ∧
    assetCalls (downloadReferences d s index).events =
      (index.URLs .link).1.map (fun u => (u, assetProcessor.cssProcessor)) ++
      (index.URLs .script).1.map (fun u => (u, assetProcessor.nil)) ++
      (index.URLs .body).1.map (fun u => (u, assetProcessor.nil)) ++
      (index.URLs .style).1.map (fun u => (u, assetProcessor.nil)) ++
      (s.imagesQueue ++ (index.URLs .body).1 ++ (index.URLs .img).1 ++
        queuedURLs (downloadReferences d s index).events).map
          (fun u => (u, assetProcessor.checkImageForRecode)) := by
  have hnone : (downloadReferences d s index).err = none := by
    rcases downloadReferences_err d s index with h1 | h1
    · exact h1
    · obtain ⟨pre, e, h2, h3, _⟩ := (downloadReferences_cancelInv d s index).2 h1
      have := h e (by rw [h2]; simp)
      rw [h3] at this; cases this
  refine ⟨hnone, ?_⟩
  rw [downloadReferences_assetCalls d s index hnone]
  simp [tagsWithReferences, processorFor]

/-- Witness of C2: the pass over the demo page, where nothing is cancelled. -/
theorem best_effort_pass_witness :
    (∀ e ∈ (downloadReferences site fresh demoIndex).events, cancelFetch e = false) ∧
    (downloadReferences site fresh demoIndex).err = none ∧
    assetCalls (downloadReferences site fresh demoIndex).events =
      (demoIndex.URLs .link).1.map (fun u => (u, assetProcessor.cssProcessor)) ++
      (demoIndex.URLs .script).1.map (fun u => (u, assetProcessor.nil)) ++
      (demoIndex.URLs .body).1.map (fun u => (u, assetProcessor.nil)) ++
      (demoIndex.URLs .style).1.map (fun u => (u, assetProcessor.nil)) ++
      (fresh.imagesQueue ++ (demoIndex.URLs .body).1 ++ (demoIndex.URLs .img).1 ++
        queuedURLs (downloadReferences site fresh demoIndex).events).map
          (fun u => (u, assetProcessor.checkImageForRecode)) :=
  ⟨by decide, best_effort_pass site fresh demoIndex (by decide)⟩

/-- C4 (silent skip): when the policy rejects the fragment-stripped URL, or a file already
exists at its derived path, `downloadAsset` returns nil without any transport call,
transformer call or write and leaves the queue alone; and every transport call of a pass
comes directly after the policy accepted that URL and the existence check found no file
at its derived path. -/
theorem silent_skip (d : Deps W) (s : Scraper W) (u : URL) (p : assetProcessor)
    (index : Index) :
    ((d.shouldURLBeDownloaded s.world { u with Fragment := "" } 0 true).1 = false ∨
      d.fileExists (d.shouldURLBeDownloaded s.world { u with Fragment := "" } 0 true).2
        (d.getFilePath { u with Fragment := "" } false) = true →
      (downloadAsset d s u p).err = none ∧
      (∀ e ∈ (downloadAsset d s u p).events,
        isFetch e = false ∧ transformerEvent e = false ∧ isWrite e = false) ∧
      (downloadAsset d s u p).s.imagesQueue = s.imagesQueue) ∧
    (∀ pre post v r,
      (downloadReferences d s index).events = pre ++ Event.fetch v r :: post →
      ∃ pre', pre = pre' ++
        [Event.policy v true, Event.fileExists (d.getFilePath v false) false]) := by
  refine ⟨?_, downloadReferences_guarded d s index⟩
  intro h
  simp only [downloadAsset]
  split
  · simp [isFetch, transformerEvent, isWrite]
  · rename_i hpol
    rcases h with h | h
    · exact absurd h hpol
    · simp [h, isFetch, transformerEvent, isWrite]

/-- Witness of C4: a URL whose file is already on disk, and the first transport call of
the demo pass. -/
theorem silent_skip_witness :
    (site.fileExists
        (site.shouldURLBeDownloaded ["example.org/a.js"]
          { page "/a.js" with Fragment := "" } 0 true).2
        (site.getFilePath { page "/a.js" with Fragment := "" } false) = true ∧
      (downloadAsset site ⟨[], ["example.org/a.js"]⟩ (page "/a.js") .nil).err = none ∧
      (downloadAsset site ⟨[], ["example.org/a.js"]⟩ (page "/a.js") .nil).events =
        [Event.policy (page "/a.js") true, Event.fileExists "example.org/a.js" true]) ∧
    ((downloadReferences site fresh demoIndex).events =
        (downloadReferences site fresh demoIndex).events.take 6 ++
          Event.fetch (page "/style.css") none ::
            (downloadReferences site fresh demoIndex).events.drop 7 ∧
      ∃ pre', (downloadReferences site fresh demoIndex).events.take 6 = pre' ++
        [Event.policy (page "/style.css") true,
          Event.fileExists (site.getFilePath (page "/style.css") false) false]) :=
  ⟨⟨by decide,
    ((silent_skip site ⟨[], ["example.org/a.js"]⟩ (page "/a.js") .nil demoIndex).1
      (Or.inr (by decide))).1, by decide⟩,
   by decide,
   (silent_skip site fresh (page "/a.js") .nil demoIndex).2
    ((downloadReferences site fresh demoIndex).events.take 6)
    ((downloadReferences site fresh demoIndex).events.drop 7)
    (page "/style.css") none (by decide)⟩

/-- C6 (queue growth visibility): the stylesheet rewriter appends every URL its scanner
reports to the image queue; a stylesheet of the link category that is fetched has each of
them queued; and a pass that is not cancelled invokes the per-asset operation with the
image recoder on the queue as it stood at the start, on the body and img URLs, and on
every URL the rewriter queued. -/
theorem queue_growth_visible (d : Deps W) (s : Scraper W) (index : Index) :
    (∀ (s' : Scraper W) (baseURL : URL) (buf : String),
      (cssProcessor d s' baseURL buf).2.1.imagesQueue =
        s'.imagesQueue ++ (d.cssProcess baseURL buf).map (fun c => c.u)) ∧
    (∀ (s' : Scraper W) (u : URL) (buf : String),
      (d.shouldURLBeDownloaded s'.world { u with Fragment := "" } 0 true).1 = true →
      d.fileExists (d.shouldURLBeDownloaded s'.world { u with Fragment := "" } 0 true).2
        (d.getFilePath { u with Fragment := "" } false) = false →
      (d.httpDownloader (d.shouldURLBeDownloaded s'.world { u with Fragment := "" } 0 true).2
        { u with Fragment := "" }).1 = .ok buf →
      queuedURLs (downloadAsset d s' u .cssProcessor).events =
        (d.cssProcess { u with Fragment := "" } buf).map (fun c => c.u)) ∧
    ((downloadReferences d s index).err = none →
      drainCalls (downloadReferences d s index).events =
        (s.imagesQueue ++ (index.URLs .body).1 ++ (index.URLs .img).1 ++
          queuedURLs (downloadReferences d s index).events).map
            (fun u => (u, assetProcessor.checkImageForRecode))) := by
  refine ⟨fun s' baseURL buf => cssProcessor_queue d s' baseURL buf, ?_, fun h => ?_⟩
  · intro s' u buf h1 h2 h3
    simp only [downloadAsset, h1, h2, h3]
    simp [queuedURLs, queuedURLs_append, applyProcessor, cssProcessor_events,
      queuedURLs_map_queued]
  · rw [drainCalls, downloadReferences_assetCalls d s index h]
    simp [tagsWithReferences, processorFor, List.filter_append, List.filter_map,
      Function.comp_def]

/-- Witness of C6: in the demo pass the stylesheet makes the rewriter queue `/bg.png`,
which the drain phase then processes after the body and img references. -/
theorem queue_growth_visible_witness :
    (queuedURLs (downloadAsset site fresh (page "/style.css") .cssProcessor).events =
      [page "/bg.png"]) ∧
    (downloadReferences site fresh demoIndex).err = none ∧
    drainCalls (downloadReferences site fresh demoIndex).events =
      [(page "/hero.jpg", .checkImageForRecode), (page "/logo.png", .checkImageForRecode),
        (page "/bg.png", .checkImageForRecode)] :=
  ⟨((queue_growth_visible site fresh demoIndex).2.1 fresh (page "/style.css")
      "body{background:url(bg.png)}" (by decide) (by decide) rfl).trans (by decide),
    by decide,
    ((queue_growth_visible site fresh demoIndex).2.2 (by decide)).trans (by decide)⟩

theorem applyProcessor_concerns (d : Deps W) (s : Scraper W) (p : assetProcessor) (v : URL)
    (buf : String) : ∀ e ∈ (applyProcessor d s p v buf).2.2, concerns d v e = true := by
  cases p with
  | nil => simp [applyProcessor]
  | cssProcessor =>
    simp only [applyProcessor, cssProcessor_events]
    intro e he
    rcases List.mem_cons.1 he with rfl | he
    · simp [concerns]
    · obtain ⟨c, _, rfl⟩ := List.mem_map.1 he
      rfl
  | checkImageForRecode => simp [applyProcessor, concerns]

/-- C7 (fragment normalization): `downloadAsset` on a URL carrying any fragment does
exactly what it does on that URL without it (same error, same resulting scraper, same
calls), and every call it makes is for the fragment-stripped URL: the policy, the
transport and the transformer receive it, the existence check and the writer its derived
path. -/
theorem fragment_normalization (d : Deps W) (s : Scraper W) (u : URL) (F : String)
    (p : assetProcessor) :
    downloadAsset d s { u with Fragment := F } p =
      downloadAsset d s { u with Fragment := "" } p ∧
    ∀ e ∈ (downloadAsset d s { u with Fragment := F } p).events,
      concerns d { u with Fragment := "" } e = true := by
  refine ⟨rfl, ?_⟩
  intro e he
  simp only [downloadAsset] at he
  split at he
  · simp only [List.mem_singleton] at he
    subst he
    simp [concerns]
  · split at he
    · simp only [List.mem_cons, List.mem_singleton, List.not_mem_nil, or_false] at he
      rcases he with rfl | rfl <;> simp [concerns]
    · split at he
      · simp only [List.mem_cons, List.mem_singleton, List.not_mem_nil, or_false] at he
        rcases he with rfl | rfl | rfl <;> simp [concerns]
      · simp only [List.mem_append, List.mem_cons, List.mem_singleton, List.not_mem_nil,
          or_false] at he
        rcases he with ((rfl | rfl | rfl) | he) | rfl
        · simp [concerns]
        · simp [concerns]
        · simp [concerns]
        · exact applyProcessor_concerns d _ p _ _ e he
        · simp [concerns]

/-- C8 as amended (category order): before the queue drain, a pass that is not cancelled
invokes the per-asset operation on URLs(link) ++ URLs(script) ++ URLs(body) ++
URLs(style), each category in the order the index returns. -/
theorem category_order (d : Deps W) (s : Scraper W) (index : Index)
    (h : (downloadReferences d s index).err = none) :
    tagCalls (downloadReferences d s index).events =
      (index.URLs .link).1.map (fun u => (u, assetProcessor.cssProcessor)) ++
      (index.URLs .script).1.map (fun u => (u, assetProcessor.nil)) ++
      (index.URLs .body).1.map (fun u => (u, assetProcessor.nil)) ++
      (index.URLs .style).1.map (fun u => (u, assetProcessor.nil)) := by
  rw [tagCalls, downloadReferences_assetCalls d s index h]
  simp [tagsWithReferences, processorFor, List.filter_append, List.filter_map,
    Function.comp_def]

/-- Witness of C8 as amended: the demo pass. -/
theorem category_order_witness :
    (downloadReferences site fresh demoIndex).err = none ∧
    tagCalls (downloadReferences site fresh demoIndex).events =
      [(page "/style.css", .cssProcessor), (page "/a.js", .nil), (page "/b.js", .nil),
        (page "/hero.jpg", .nil), (page "/font.woff", .nil)] :=
  ⟨by decide, (category_order site fresh demoIndex (by decide)).trans (by decide)⟩

/-- C8 as stated fails: in the demo pass the body reference is visited before the style
reference, not after it. -/
theorem category_order_counterexample :
    (downloadReferences site fresh demoIndex).err = none ∧
    tagCalls (downloadReferences site fresh demoIndex).events ≠
      (demoIndex.URLs .link).1.map (fun u => (u, assetProcessor.cssProcessor)) ++
      (demoIndex.URLs .script).1.map (fun u => (u, assetProcessor.nil)) ++
      (demoIndex.URLs .style).1.map (fun u => (u, assetProcessor.nil)) ++
      (demoIndex.URLs .body).1.map (fun u => (u, assetProcessor.nil)) := by
  decide

/-- C9 at its failing input: when the transport reports cancellation on the second
script, the pass returns the cancellation error and the queue still holds the body and
img references and the image found in the stylesheet. -/
theorem queue_left_on_cancel :
    (downloadReferences site fresh cancelIndex).err =
      some (.wrap "downloading asset" (.wrap "Get" .canceled)) ∧
    (downloadReferences site fresh cancelIndex).s.imagesQueue =
      [page "/hero.jpg", page "/logo.png", page "/bg.png"] := by
  decide

theorem transformerEvent_not_write {e : Event} (h : transformerEvent e = true) :
    isWrite e = false := by
  cases e <;> simp_all [transformerEvent, isWrite]

theorem applyProcessor_countP_fetch (d : Deps W) (s : Scraper W) (p : assetProcessor)
    (u : URL) (buf : String) : (applyProcessor d s p u buf).2.2.countP isFetch = 0 := by
  rw [List.countP_eq_zero]
  intro e he
  simp [transformerEvent_not_fetch (applyProcessor_events d s p u buf e he)]

theorem applyProcessor_countP_write (d : Deps W) (s : Scraper W) (p : assetProcessor)
    (u : URL) (buf : String) : (applyProcessor d s p u buf).2.2.countP isWrite = 0 := by
  rw [List.countP_eq_zero]
  intro e he
  simp [transformerEvent_not_write (applyProcessor_events d s p u buf e he)]

/-- C3 as amended (dedup by derived path): for two URLs with the same derived path, when
the first is eligible, no file is at the path, its fetch succeeds and the file it wrote is
found at the path when the second URL is checked, the two `downloadAsset` calls in
sequence make exactly one transport fetch and exactly one file write. -/
theorem dedup_same_path (d : Deps W) (s : Scraper W) (u1 u2 : URL) (p1 p2 : assetProcessor)
    (hpath : d.getFilePath { u1 with Fragment := "" } false =
      d.getFilePath { u2 with Fragment := "" } false)
    (helig : (d.shouldURLBeDownloaded s.world { u1 with Fragment := "" } 0 true).1 = true)
    (hnofile : d.fileExists (d.shouldURLBeDownloaded s.world { u1 with Fragment := "" } 0 true).2
      (d.getFilePath { u1 with Fragment := "" } false) = false)
    (hfetch : ∃ buf, (d.httpDownloader
      (d.shouldURLBeDownloaded s.world { u1 with Fragment := "" } 0 true).2
      { u1 with Fragment := "" }).1 = .ok buf)
    (hstored : d.fileExists
      (d.shouldURLBeDownloaded (downloadAsset d s u1 p1).s.world
        { u2 with Fragment := "" } 0 true).2
      (d.getFilePath { u1 with Fragment := "" } false) = true) :
    ((downloadAsset d s u1 p1).events ++
      (downloadAsset d (downloadAsset d s u1 p1).s u2 p2).events).countP isFetch = 1 ∧
    ((downloadAsset d s u1 p1).events ++
      (downloadAsset d (downloadAsset d s u1 p1).s u2 p2).events).countP isWrite = 1 := by
  obtain ⟨buf, hbuf⟩ := hfetch
  have h2 : (downloadAsset d (downloadAsset d s u1 p1).s u2 p2).events.countP isFetch = 0 ∧
      (downloadAsset d (downloadAsset d s u1 p1).s u2 p2).events.countP isWrite = 0 := by
    generalize (downloadAsset d s u1 p1).s = s1 at hstored ⊢
    rw [hpath] at hstored
    simp only [downloadAsset]
    split
    · simp [isFetch, isWrite]
    · simp [hstored, isFetch, isWrite]
  have h1 : (downloadAsset d s u1 p1).events.countP isFetch = 1 ∧
      (downloadAsset d s u1 p1).events.countP isWrite = 1 := by
    simp only [downloadAsset, helig, hnofile, hbuf]
    simp [List.countP_cons, List.countP_append, isFetch, isWrite,
      applyProcessor_countP_fetch, applyProcessor_countP_write]
  simp [List.countP_append, h1, h2]

/-- Witness of C3 as amended: two URLs of the concrete site that differ in their query and
share the path `example.org/logo.png`. -/
theorem dedup_same_path_witness :
    (site.getFilePath { pageQuery "/logo.png" "v=1" with Fragment := "" } false =
      site.getFilePath { pageQuery "/logo.png" "v=2" with Fragment := "" } false) ∧
    ((downloadAsset site fresh (pageQuery "/logo.png" "v=1") .nil).events ++
      (downloadAsset site
        (downloadAsset site fresh (pageQuery "/logo.png" "v=1") .nil).s
        (pageQuery "/logo.png" "v=2") .nil).events).countP isFetch = 1 ∧
    ((downloadAsset site fresh (pageQuery "/logo.png" "v=1") .nil).events ++
      (downloadAsset site
        (downloadAsset site fresh (pageQuery "/logo.png" "v=1") .nil).s
        (pageQuery "/logo.png" "v=2") .nil).events).countP isWrite = 1 :=
  ⟨by decide, dedup_same_path site fresh (pageQuery "/logo.png" "v=1")
    (pageQuery "/logo.png" "v=2") .nil .nil (by decide) (by decide) (by decide)
    ⟨"data", rfl⟩ (by decide)⟩

/-- C3 as stated fails: two distinct eligible URLs with the same derived path and no file
there. When the fetch of the first fails, the second is fetched as well; when the fetch
succeeds and the write fails, the second is fetched and written as well. -/
theorem dedup_counterexample :
    (pageQuery "/logo.png" "fail" ≠ page "/logo.png" ∧
      site.getFilePath (pageQuery "/logo.png" "fail") false =
        site.getFilePath (page "/logo.png") false ∧
      (site.shouldURLBeDownloaded fresh.world (pageQuery "/logo.png" "fail") 0 true).1 = true ∧
      (site.shouldURLBeDownloaded fresh.world (page "/logo.png") 0 true).1 = true ∧
      site.fileExists fresh.world (site.getFilePath (page "/logo.png") false) = false ∧
      ((downloadAsset site fresh (pageQuery "/logo.png" "fail") .nil).events ++
        (downloadAsset site
          (downloadAsset site fresh (pageQuery "/logo.png" "fail") .nil).s
          (page "/logo.png") .nil).events).countP isFetch = 2) ∧
    (pageQuery "/ro/logo.png" "v=1" ≠ pageQuery "/ro/logo.png" "v=2" ∧
      site.getFilePath (pageQuery "/ro/logo.png" "v=1") false =
        site.getFilePath (pageQuery "/ro/logo.png" "v=2") false ∧
      (site.shouldURLBeDownloaded fresh.world (pageQuery "/ro/logo.png" "v=1") 0 true).1 =
        true ∧
      (site.shouldURLBeDownloaded fresh.world (pageQuery "/ro/logo.png" "v=2") 0 true).1 =
        true ∧
      site.fileExists fresh.world (site.getFilePath (pageQuery "/ro/logo.png" "v=1") false) =
        false ∧
      ((downloadAsset site fresh (pageQuery "/ro/logo.png" "v=1") .nil).events ++
        (downloadAsset site
          (downloadAsset site fresh (pageQuery "/ro/logo.png" "v=1") .nil).s
          (pageQuery "/ro/logo.png" "v=2") .nil).events).countP isFetch = 2 ∧
      ((downloadAsset site fresh (pageQuery "/ro/logo.png" "v=1") .nil).events ++
        (downloadAsset site
          (downloadAsset site fresh (pageQuery "/ro/logo.png" "v=1") .nil).s
          (pageQuery "/ro/logo.png" "v=2") .nil).events).countP isWrite = 2) := by
  decide

/-! ## Lemmas on the replacement loop -/

theorem replaceGo_nil (old new : List Char) (k : Nat) : replaceGo old new k [] = [] := by
  cases k <;> rfl

theorem replaceGo_cons (old new : List Char) (c : Char) (cs : List Char) :
    replaceGo old new 0 (c :: cs) =
      if old <+: c :: cs then new ++ replaceGo old new (old.length - 1) cs
      else c :: replaceGo old new 0 cs := by
  rw [replaceGo]

theorem replaceGo_skip (old new : List Char) (k : Nat) (s : List Char) :
    replaceGo old new k s = replaceGo old new 0 (s.drop k) := by
  induction k generalizing s with
  | zero => simp
  | succ k ih =>
    cases s with
    | nil => simp [replaceGo_nil]
    | cons c cs => simp [replaceGo, ih]

theorem first_paren_unique (A B X Y : List Char) (hA : ')' ∉ A) (hB : ')' ∉ B)
    (h : A ++ ')' :: X = B ++ ')' :: Y) : A = B ∧ X = Y := by
  induction A generalizing B with
  | nil =>
    cases B with
    | nil => simpa using h
    | cons b B =>
      simp only [List.nil_append, List.cons_append, List.cons.injEq] at h
      exact absurd h.1 (by intro hb; apply hB; simp [← hb])
  | cons a A ih =>
    cases B with
    | nil =>
      simp only [List.nil_append, List.cons_append, List.cons.injEq] at h
      exact absurd h.1 (by intro ha; apply hA; simp [ha])
    | cons b B =>
      simp only [List.cons_append, List.cons.injEq] at h
      obtain ⟨h1, h2⟩ := ih B (fun hm => hA (by simp [hm])) (fun hm => hB (by simp [hm])) h.2
      exact ⟨by rw [h.1, h1], h2⟩

theorem replaceGo_no_paren (T new s : List Char) (hs : ')' ∉ s) :
    replaceGo (T ++ [')']) new 0 s = s := by
  induction s with
  | nil => rfl
  | cons c cs ih =>
    have hno : ¬ (T ++ [')'] <+: c :: cs) := by
      intro hp
      exact hs (hp.subset (by simp))
    rw [replaceGo_cons, if_neg hno, ih (fun hm => hs (by simp [hm]))]

theorem key_at_head_iff (T seg rest : List Char) (hT : ')' ∉ T) (hseg : ')' ∉ seg) :
    T ++ [')'] <+: seg ++ ')' :: rest ↔ T = seg := by
  constructor
  · rintro ⟨z, hz⟩
    have : T ++ ')' :: z = seg ++ ')' :: rest := by simpa using hz
    exact (first_paren_unique T seg z rest hT hseg this).1
  · rintro rfl
    exact ⟨rest, by simp⟩

theorem segRewrite_cons (T R : List Char) (c : Char) (seg : List Char) (h : T ≠ c :: seg) :
    segRewrite T R (c :: seg) = c :: segRewrite T R seg := by
  unfold segRewrite
  have hiff : T <:+ c :: seg ↔ T <:+ seg := by
    rw [List.suffix_cons_iff]
    constructor
    · rintro (h1 | h1)
      · exact absurd h1 h
      · exact h1
    · exact Or.inr
  by_cases hs : T <:+ seg
  · have hlen := hs.length_le
    rw [if_pos (hiff.2 hs), if_pos hs]
    have : (c :: seg).length - T.length = (seg.length - T.length) + 1 := by
      simp only [List.length_cons]; omega
    rw [this]; rfl
  · rw [if_neg (fun h1 => hs (hiff.1 h1)), if_neg hs]

theorem replaceGo_first_segment (T R seg rest : List Char) (hT : ')' ∉ T)
    (hseg : ')' ∉ seg) :
    replaceGo (T ++ [')']) (R ++ [')']) 0 (seg ++ ')' :: rest) =
      segRewrite T R seg ++ ')' :: replaceGo (T ++ [')']) (R ++ [')']) 0 rest := by
  induction seg with
  | nil =>
    have hiff := key_at_head_iff T [] rest hT (by simp)
    simp only [List.nil_append] at hiff ⊢
    by_cases h : T = []
    · subst h
      simp [replaceGo, segRewrite]
    · have : ¬ (T ++ [')'] <+: ')' :: rest) := fun hp => h (hiff.1 hp)
      rw [replaceGo_cons, if_neg this]
      have hs : ¬ T <:+ [] := by
        intro hs; exact h (List.eq_nil_of_suffix_nil hs)
      simp [segRewrite, hs]
  | cons c seg ih =>
    have hseg' : ')' ∉ seg := fun hm => hseg (by simp [hm])
    have hiff := key_at_head_iff T (c :: seg) rest hT hseg
    by_cases h : T = c :: seg
    · have hp : T ++ [')'] <+: c :: (seg ++ ')' :: rest) := hiff.2 h
      show replaceGo _ _ 0 (c :: (seg ++ ')' :: rest)) = _
      rw [replaceGo_cons, if_pos hp, replaceGo_skip]
      subst h
      simp [segRewrite]
    · have : ¬ (T ++ [')'] <+: c :: (seg ++ ')' :: rest)) := fun hp => h (hiff.1 hp)
      show replaceGo _ _ 0 (c :: (seg ++ ')' :: rest)) = _
      rw [replaceGo_cons, if_neg this, ih hseg', segRewrite_cons T R c seg h]
      rfl

theorem replaceGo_unsplit (T R : List Char) (hT : ')' ∉ T) (segs : List (List Char))
    (tail : List Char) (hsegs : ∀ x ∈ segs, ')' ∉ x) (htail : ')' ∉ tail) :
    replaceGo (T ++ [')']) (R ++ [')']) 0 (unsplit segs tail) =
      unsplit (segs.map (segRewrite T R)) tail := by
  induction segs with
  | nil => simpa [unsplit] using replaceGo_no_paren T (R ++ [')']) tail htail
  | cons x xs ih =>
    simp only [unsplit, List.map_cons]
    rw [replaceGo_first_segment T R x _ hT (hsegs x (by simp)),
      ih (fun y hy => hsegs y (by simp [hy]))]

theorem exists_unsplit (s : List Char) :
    ∃ segs tail, (∀ x ∈ segs, ')' ∉ x) ∧ ')' ∉ tail ∧ s = unsplit segs tail := by
  induction s with
  | nil => exact ⟨[], [], by simp, by simp, rfl⟩
  | cons c s ih =>
    obtain ⟨segs, tail, h1, h2, rfl⟩ := ih
    by_cases hc : c = ')'
    · subst hc
      exact ⟨[] :: segs, tail, by simpa using h1, h2, rfl⟩
    · cases segs with
      | nil =>
        exact ⟨[], c :: tail, by simp, by simpa [eq_comm] using And.intro hc h2, rfl⟩
      | cons x xs =>
        refine ⟨(c :: x) :: xs, tail, ?_, h2, rfl⟩
        intro y hy
        rcases List.mem_cons.1 hy with rfl | hy
        · have := h1 x (by simp)
          simpa [eq_comm] using And.intro hc this
        · exact h1 y (by simp [hy])


theorem segRewrite_no_paren (T R seg : List Char) (hR : ')' ∉ R) (hseg : ')' ∉ seg) :
    ')' ∉ segRewrite T R seg := by
  unfold segRewrite
  split
  · intro hm
    rcases List.mem_append.1 hm with h | h
    · exact hseg (List.mem_of_mem_take h)
    · exact hR h
  · exact hseg

theorem key_in_unsplit (T : List Char) (hT : ')' ∉ T) (segs : List (List Char))
    (tail : List Char) (hsegs : ∀ x ∈ segs, ')' ∉ x) (htail : ')' ∉ tail)
    (h : T ++ [')'] <:+: unsplit segs tail) : ∃ x ∈ segs, T <:+ x := by
  induction segs with
  | nil =>
    exfalso
    exact htail (h.subset (by simp))
  | cons x xs ih =>
    obtain ⟨a, b, hab⟩ := h
    have hab' : a ++ (T ++ ')' :: b) = x ++ ')' :: unsplit xs tail := by
      simpa [unsplit] using hab
    have hx : ')' ∉ x := hsegs x (by simp)
    rcases List.append_eq_append_iff.1 hab' with ⟨a', h1, h2⟩ | ⟨c', h1, h2⟩
    · have ha' : ')' ∉ a' := fun hm => hx (by rw [h1]; simp [hm])
      have := (first_paren_unique T a' b _ hT ha' h2).1
      exact ⟨x, by simp, ⟨a, by rw [this, h1]⟩⟩
    · cases c' with
      | nil =>
        simp only [List.nil_append] at h2
        cases T with
        | nil => exact ⟨x, by simp, List.nil_suffix⟩
        | cons t T =>
          simp only [List.cons_append, List.cons.injEq] at h2
          exact absurd h2.1 (by intro ht; apply hT; simp [← ht])
      | cons y c' =>
        simp only [List.cons_append, List.cons.injEq] at h2
        obtain ⟨z, hz, hs⟩ := ih (fun y hy => hsegs y (by simp [hy]))
          ⟨c', b, by rw [h2.2]; simp⟩
        exact ⟨z, by simp [hz], hs⟩

theorem fixed_in_unsplit (R : List Char) (segs : List (List Char)) (tail : List Char)
    (x : List Char) (hx : x ∈ segs) (h : R <:+ x) : R ++ [')'] <:+: unsplit segs tail := by
  induction segs with
  | nil => simp at hx
  | cons y ys ih =>
    rcases List.mem_cons.1 hx with rfl | hx
    · obtain ⟨a, rfl⟩ := h
      exact ⟨a, unsplit ys tail, by simp [unsplit]⟩
    · obtain ⟨a, b, hab⟩ := ih hx
      exact ⟨y ++ ')' :: a, b, by simp [unsplit, ← hab]⟩

theorem not_suffix_append (T R A : List Char) (h1 : ¬ T <:+ R) (h2 : ¬ R <:+ T) :
    ¬ T <:+ A ++ R := by
  intro h
  rcases List.suffix_or_suffix_of_suffix h (List.suffix_append A R) with h3 | h3
  · exact h1 h3
  · exact h2 h3

theorem segRewrite_of_not_suffix (T R x : List Char) (h : ¬ T <:+ x) :
    segRewrite T R x = x := by
  simp [segRewrite, h]

theorem segRewrite_of_suffix (T R x : List Char) (h : T <:+ x) :
    ∃ A, x = A ++ T ∧ segRewrite T R x = A ++ R := by
  obtain ⟨A, rfl⟩ := h
  refine ⟨A, rfl, ?_⟩
  simp [segRewrite]

theorem segFold_of_no_match (es : List (String × String)) (x : List Char)
    (h : ∀ e ∈ es, ¬ keyBody e.1 <:+ x) : segFold es x = x := by
  induction es with
  | nil => rfl
  | cons e es ih =>
    simp only [segFold, List.foldl_cons]
    rw [segRewrite_of_not_suffix _ _ _ (h e (by simp))]
    exact ih (fun e' he' => h e' (by simp [he']))

theorem eq_of_key_eq (m : List (String × String)) (hnd : (m.map Prod.fst).Nodup)
    (e e' : String × String) (he : e ∈ m) (he' : e' ∈ m) (h : e.1 = e'.1) : e = e' := by
  induction m with
  | nil => simp at he
  | cons a m ih =>
    simp only [List.map_cons, List.nodup_cons] at hnd
    rcases List.mem_cons.1 he with h1 | h1
    · rcases List.mem_cons.1 he' with h2 | h2
      · rw [h1, h2]
      · exfalso
        apply hnd.1
        rw [← h1, h]
        exact List.mem_map_of_mem Prod.fst h2
    · rcases List.mem_cons.1 he' with h2 | h2
      · exfalso
        apply hnd.1
        rw [← h2, ← h]
        exact List.mem_map_of_mem Prod.fst h1
      · exact ih hnd.2 h1 h2

theorem segFold_of_match (es : List (String × String)) (hnd : (es.map Prod.fst).Nodup)
    (hsep : ∀ e ∈ es, ∀ e' ∈ es, e.1 ≠ e'.1 →
      ¬ keyBody e'.1 <:+ fixedBody e.2 ∧ ¬ fixedBody e.2 <:+ keyBody e'.1 ∧
      ¬ keyBody e.1 <:+ keyBody e'.1)
    (x : List Char) (e : String × String) (he : e ∈ es) (hx : keyBody e.1 <:+ x) :
    segFold es x = segRewrite (keyBody e.1) (fixedBody e.2) x := by
  induction es with
  | nil => simp at he
  | cons e0 rest ih =>
    have hnd' := hnd
    simp only [List.map_cons, List.nodup_cons] at hnd'
    simp only [segFold, List.foldl_cons]
    by_cases h0 : keyBody e0.1 <:+ x
    · have hkey : e0.1 = e.1 := by
        by_contra hne
        rcases List.suffix_or_suffix_of_suffix h0 hx with h | h
        · exact (hsep e0 (by simp) e he hne).2.2 h
        · exact (hsep e he e0 (by simp) (fun h' => hne h'.symm)).2.2 h
      have hee : e0 = e := eq_of_key_eq _ hnd e0 e (by simp) he hkey
      subst hee
      obtain ⟨A, _, hA⟩ := segRewrite_of_suffix (keyBody e0.1) (fixedBody e0.2) x h0
      rw [hA]
      apply segFold_of_no_match
      intro e' he'
      have hne : e0.1 ≠ e'.1 := by
        intro h
        exact hnd'.1 (by rw [h]; exact List.mem_map_of_mem Prod.fst he')
      have := hsep e0 (by simp) e' (by simp [he']) hne
      exact not_suffix_append _ _ A this.1 this.2.1
    · rw [segRewrite_of_not_suffix _ _ _ h0]
      have hne : e ≠ e0 := by
        rintro rfl; exact h0 hx
      have he' : e ∈ rest := by
        rcases List.mem_cons.1 he with h | h
        · exact absurd h hne
        · exact h
      exact ih hnd'.2
        (fun a ha b hb => hsep a (by simp [ha]) b (by simp [hb])) he'

/-- The per-run effect of the passes is the same for any two orders of a separated
mapping. -/
theorem segFold_perm (m es1 es2 : List (String × String)) (hnd : (m.map Prod.fst).Nodup)
    (hsep : Separated m) (h1 : es1.Perm m) (h2 : es2.Perm m) (x : List Char) :
    segFold es1 x = segFold es2 x := by
  have hnd1 : (es1.map Prod.fst).Nodup := ((h1.map Prod.fst).nodup_iff).2 hnd
  have hnd2 : (es2.map Prod.fst).Nodup := ((h2.map Prod.fst).nodup_iff).2 hnd
  by_cases hex : ∃ e ∈ m, keyBody e.1 <:+ x
  · obtain ⟨e, he, hx⟩ := hex
    rw [segFold_of_match es1 hnd1
        (fun a ha b hb => hsep.2 a (h1.subset ha) b (h1.subset hb)) x e (h1.symm.subset he) hx,
      segFold_of_match es2 hnd2
        (fun a ha b hb => hsep.2 a (h2.subset ha) b (h2.subset hb)) x e (h2.symm.subset he) hx]
  · have hno : ∀ e ∈ m, ¬ keyBody e.1 <:+ x := fun e he hx => hex ⟨e, he, hx⟩
    rw [segFold_of_no_match es1 x (fun e he => hno e (h1.subset he)),
      segFold_of_no_match es2 x (fun e he => hno e (h2.subset he))]



theorem key_data (e : String × String) (h : wellFormedEntry e) :
    e.1.data = keyBody e.1 ++ [')'] :=
  (List.dropLast_append_getLast? _ h.1).symm

theorem fixed_data (p : String) : ("url(" ++ p ++ ")").data = fixedBody p ++ [')'] := by
  simp [fixedBody, String.data_append]

theorem fixedBody_no_paren (p : String) (h : ')' ∉ p.data) : ')' ∉ fixedBody p := by
  intro hm
  rcases List.mem_append.1 hm with h1 | h1
  · revert h1; decide
  · exact h h1

theorem stringsReplaceAll_unsplit (acc : String) (e : String × String)
    (he : wellFormedEntry e) (segs : List (List Char)) (tail : List Char)
    (hsegs : ∀ x ∈ segs, ')' ∉ x) (htail : ')' ∉ tail) (hacc : acc.data = unsplit segs tail) :
    (stringsReplaceAll acc e.1 ("url(" ++ e.2 ++ ")")).data =
      unsplit (segs.map (segRewrite (keyBody e.1) (fixedBody e.2))) tail := by
  have hk := key_data e he
  have hne : e.1.data ≠ [] := by rw [hk]; simp
  simp only [stringsReplaceAll, replaceAll, if_neg hne]
  rw [fixed_data, hk, hacc]
  exact replaceGo_unsplit _ _ he.2.1 segs tail hsegs htail

theorem segFold_nil_map (segs : List (List Char)) : segs.map (segFold []) = segs := by
  induction segs with
  | nil => rfl
  | cons x xs ih => simp [segFold, ih]

theorem cssRewrite_unsplit (es : List (String × String)) (hwf : ∀ e ∈ es, wellFormedEntry e)
    (str : String) (segs : List (List Char)) (tail : List Char)
    (hsegs : ∀ x ∈ segs, ')' ∉ x) (htail : ')' ∉ tail) (hstr : str.data = unsplit segs tail) :
    (cssRewrite es str).data = unsplit (segs.map (segFold es)) tail := by
  induction es generalizing str segs with
  | nil =>
    rw [segFold_nil_map]
    exact hstr
  | cons e es ih =>
    have he := hwf e (by simp)
    have h1 := stringsReplaceAll_unsplit str e he segs tail hsegs htail hstr
    have h2 := ih (fun a ha => hwf a (by simp [ha]))
      (stringsReplaceAll str e.1 ("url(" ++ e.2 ++ ")"))
      (segs.map (segRewrite (keyBody e.1) (fixedBody e.2)))
      (by
        intro y hy
        obtain ⟨x, hx, rfl⟩ := List.mem_map.1 hy
        exact segRewrite_no_paren _ _ _ (fixedBody_no_paren _ he.2.2) (hsegs x hx))
      h1
    simp only [cssRewrite, List.foldl_cons] at h2 ⊢
    rw [h2, List.map_map]
    rfl

/-- Order independence of the replacement loop on a separated mapping. -/
theorem cssRewrite_perm (m es1 es2 : List (String × String))
    (hnd : (m.map Prod.fst).Nodup) (hsep : Separated m) (h1 : es1.Perm m)
    (h2 : es2.Perm m) (str : String) : cssRewrite es1 str = cssRewrite es2 str := by
  obtain ⟨segs, tail, hsegs, htail, hstr⟩ := exists_unsplit str.data
  have e1 := cssRewrite_unsplit es1 (fun e he => hsep.1 e (h1.subset he)) str segs tail
    hsegs htail hstr
  have e2 := cssRewrite_unsplit es2 (fun e he => hsep.1 e (h2.subset he)) str segs tail
    hsegs htail hstr
  have : (cssRewrite es1 str).data = (cssRewrite es2 str).data := by
    rw [e1, e2]
    congr 1
    apply List.map_congr_left
    intro x _
    exact segFold_perm m es1 es2 hnd hsep h1 h2 x
  exact String.ext this

theorem segFold_no_paren (es : List (String × String)) (hwf : ∀ e ∈ es, wellFormedEntry e)
    (x : List Char) (hx : ')' ∉ x) : ')' ∉ segFold es x := by
  induction es generalizing x with
  | nil => exact hx
  | cons e es ih =>
    simp only [segFold, List.foldl_cons]
    exact ih (fun a ha => hwf a (by simp [ha])) _
      (segRewrite_no_paren _ _ _ (fixedBody_no_paren _ (hwf e (by simp)).2.2) hx)

/-- Completeness of the replacement loop on a separated mapping: the replacement of an
entry whose key occurs is in the result, and the key is not, unless the replacement of
that entry brings it back. -/
theorem cssRewrite_complete (m es : List (String × String))
    (hnd : (m.map Prod.fst).Nodup) (hsep : Separated m)
    (hperm : es.Perm m) (str : String) (e : String × String) (he : e ∈ m) :
    (e.1.data <:+: str.data →
      ("url(" ++ e.2 ++ ")").data <:+: (cssRewrite es str).data) ∧
    (¬ keyBody e.1 <:+ fixedBody e.2 → ¬ fixedBody e.2 <:+ keyBody e.1 →
      ¬ e.1.data <:+: (cssRewrite es str).data) := by
  obtain ⟨segs, tail, hsegs, htail, hstr⟩ := exists_unsplit str.data
  have hwf : ∀ a ∈ es, wellFormedEntry a := fun a ha => hsep.1 a (hperm.subset ha)
  have hout := cssRewrite_unsplit es hwf str segs tail hsegs htail hstr
  have hnd' : (es.map Prod.fst).Nodup := ((hperm.map Prod.fst).nodup_iff).2 hnd
  have hsep' : ∀ a ∈ es, ∀ b ∈ es, a.1 ≠ b.1 →
      ¬ keyBody b.1 <:+ fixedBody a.2 ∧ ¬ fixedBody a.2 <:+ keyBody b.1 ∧
      ¬ keyBody a.1 <:+ keyBody b.1 :=
    fun a ha b hb => hsep.2 a (hperm.subset ha) b (hperm.subset hb)
  have hk := key_data e (hsep.1 e he)
  constructor
  · intro hin
    rw [hstr, hk] at hin
    obtain ⟨x, hx, hs⟩ := key_in_unsplit _ (hsep.1 e he).2.1 segs tail hsegs htail hin
    rw [hout, fixed_data]
    apply fixed_in_unsplit (fixedBody e.2) _ tail (segFold es x) (List.mem_map_of_mem _ hx)
    rw [segFold_of_match es hnd' hsep' x e (hperm.symm.subset he) hs]
    obtain ⟨A, _, hA⟩ := segRewrite_of_suffix _ (fixedBody e.2) x hs
    rw [hA]
    exact List.suffix_append A _
  · intro hn1 hn2
    rw [hout, hk]
    intro hin
    obtain ⟨y, hy, hs⟩ := key_in_unsplit _ (hsep.1 e he).2.1 _ tail
      (by
        intro y hy
        obtain ⟨x, hx, rfl⟩ := List.mem_map.1 hy
        exact segFold_no_paren es hwf x (hsegs x hx))
      htail hin
    obtain ⟨x, hx, rfl⟩ := List.mem_map.1 hy
    by_cases hex : ∃ a ∈ es, keyBody a.1 <:+ x
    · obtain ⟨a, ha, hax⟩ := hex
      rw [segFold_of_match es hnd' hsep' x a ha hax] at hs
      obtain ⟨A, _, hA⟩ := segRewrite_of_suffix _ (fixedBody a.2) x hax
      rw [hA] at hs
      by_cases hae : a.1 = e.1
      · have : a = e := eq_of_key_eq m hnd a e (hperm.subset ha) he hae
        subst this
        exact not_suffix_append _ _ A hn1 hn2 hs
      · have := hsep.2 a (hperm.subset ha) e he hae
        exact not_suffix_append _ _ A this.1 this.2.1 hs
    · rw [segFold_of_no_match es x (fun a ha hax => hex ⟨a, ha, hax⟩)] at hs
      exact hex ⟨e, hperm.symm.subset he, hs⟩

/-! ## The mapping built by cssProcessor -/

theorem mapAssign_keys (m : List (String × String)) (k v : String) (a : String) :
    a ∈ (mapAssign m k v).map Prod.fst ↔ a = k ∨ a ∈ m.map Prod.fst := by
  induction m with
  | nil => simp [mapAssign]
  | cons e m ih =>
    simp only [mapAssign]
    split
    · rename_i h
      simp only [List.map_cons, List.mem_cons, h]
      tauto
    · simp only [List.map_cons, List.mem_cons, ih]
      tauto

theorem mapAssign_nodup (m : List (String × String)) (k v : String)
    (h : (m.map Prod.fst).Nodup) : ((mapAssign m k v).map Prod.fst).Nodup := by
  induction m with
  | nil => simp [mapAssign]
  | cons e m ih =>
    simp only [List.map_cons, List.nodup_cons] at h
    simp only [mapAssign]
    split
    · rename_i hk
      simp only [List.map_cons, List.nodup_cons]
      exact ⟨by rw [← hk]; exact h.1, h.2⟩
    · rename_i hk
      simp only [List.map_cons, List.nodup_cons, mapAssign_keys]
      refine ⟨?_, ih h.2⟩
      rintro (h1 | h1)
      · exact hk h1
      · exact h.1 h1

theorem cssCallback_foldl_snd (d : Deps W) (calls : List cssCall)
    (q q' : List URL) (m : List (String × String)) :
    (calls.foldl (cssCallback d) (q, m)).2 = (calls.foldl (cssCallback d) (q', m)).2 := by
  induction calls generalizing q q' m with
  | nil => rfl
  | cons c calls ih =>
    simp only [List.foldl_cons, cssCallback]
    exact ih _ _ _

theorem cssCallback_foldl_nodup (d : Deps W) (calls : List cssCall)
    (st : List URL × List (String × String)) (h : (st.2.map Prod.fst).Nodup) :
    (((calls.foldl (cssCallback d) st).2).map Prod.fst).Nodup := by
  induction calls generalizing st with
  | nil => exact h
  | cons c calls ih =>
    simp only [List.foldl_cons]
    exact ih _ (mapAssign_nodup _ _ _ h)

theorem cssCallback_foldl_keys (d : Deps W) (calls : List cssCall)
    (st : List URL × List (String × String)) (a : String)
    (h : a ∈ st.2.map Prod.fst ∨ ∃ c ∈ calls, c.tokenValue = a) :
    a ∈ ((calls.foldl (cssCallback d) st).2).map Prod.fst := by
  induction calls generalizing st with
  | nil =>
    rcases h with h | ⟨c, hc, _⟩
    · exact h
    · simp at hc
  | cons c calls ih =>
    simp only [List.foldl_cons]
    apply ih
    rcases h with h | ⟨c', hc', rfl⟩
    · left
      exact (mapAssign_keys _ _ _ _).2 (Or.inr h)
    · rcases List.mem_cons.1 hc' with rfl | hc'
      · left
        exact (mapAssign_keys _ _ _ _).2 (Or.inl rfl)
      · exact Or.inr ⟨c', hc', rfl⟩

theorem cssMapping_nodup (d : Deps W) (baseURL : URL) (buf : String) :
    ((cssMapping d baseURL buf).map Prod.fst).Nodup :=
  cssCallback_foldl_nodup d _ _ (by simp)

theorem cssMapping_covers (d : Deps W) (baseURL : URL) (buf : String) (c : cssCall)
    (hc : c ∈ d.cssProcess baseURL buf) :
    ∃ p, (c.tokenValue, p) ∈ cssMapping d baseURL buf := by
  have := cssCallback_foldl_keys d (d.cssProcess baseURL buf) ([], []) c.tokenValue
    (Or.inr ⟨c, hc, rfl⟩)
  obtain ⟨e, he, hk⟩ := List.mem_map.1 this
  exact ⟨e.2, by rw [← hk]; exact he⟩

theorem mapAssign_mem_self (m : List (String × String)) (k v : String) :
    (k, v) ∈ mapAssign m k v := by
  induction m with
  | nil => simp [mapAssign]
  | cons e m ih =>
    simp only [mapAssign]
    split
    · simp
    · exact List.mem_cons_of_mem _ ih

theorem mapAssign_mem_of_ne (m : List (String × String)) (k v k' v' : String)
    (h : (k, v) ∈ m) (hne : k' ≠ k) : (k, v) ∈ mapAssign m k' v' := by
  induction m with
  | nil => simp at h
  | cons e m ih =>
    simp only [mapAssign]
    rcases List.mem_cons.1 h with h1 | h1
    · have he : ¬ e.1 = k' := by
        rw [← h1]
        exact fun hk => hne hk.symm
      rw [if_neg he, ← h1]
      exact List.mem_cons_self _ _
    · split
      · exact List.mem_cons_of_mem _ h1
      · exact List.mem_cons_of_mem _ (ih h1)

theorem cssCallback_foldl_keeps (d : Deps W) (calls : List cssCall)
    (st : List URL × List (String × String)) (k v : String) (h : (k, v) ∈ st.2)
    (hne : ∀ c ∈ calls, c.tokenValue ≠ k) :
    (k, v) ∈ (calls.foldl (cssCallback d) st).2 := by
  induction calls generalizing st with
  | nil => exact h
  | cons c calls ih =>
    simp only [List.foldl_cons]
    apply ih
    · exact mapAssign_mem_of_ne _ _ _ _ _ h (hne c (by simp))
    · exact fun c' hc' => hne c' (by simp [hc'])

/-- The entry of the last callback with a given token text is in the mapping. -/
theorem cssMapping_last (d : Deps W) (baseURL : URL) (buf : String)
    (pre : List cssCall) (c : cssCall) (post : List cssCall)
    (hcalls : d.cssProcess baseURL buf = pre ++ c :: post)
    (hlast : ∀ c' ∈ post, c'.tokenValue ≠ c.tokenValue) :
    (c.tokenValue, resolvedPath d c) ∈ cssMapping d baseURL buf := by
  simp only [cssMapping, hcalls, List.foldl_append, List.foldl_cons]
  apply cssCallback_foldl_keeps d post _ _ _ _ hlast
  exact mapAssign_mem_self _ _ _

/-- The buffer `cssProcessor` returns, in terms of the mapping and the replacement loop. -/
theorem cssProcessor_content (d : Deps W) (s : Scraper W) (baseURL : URL) (buf : String) :
    (cssProcessor d s baseURL buf).1 =
      if (cssMapping d baseURL buf).length = 0 then buf
      else cssRewrite (d.rangeOrder s.world (cssMapping d baseURL buf)) buf := by
  have h := cssCallback_foldl_snd d (d.cssProcess baseURL buf) s.imagesQueue [] []
  simp only [cssProcessor, cssMapping]
  rw [h]
  split <;> rfl

/-! ## Properties of the stylesheet rewriter -/

/-- C5 as amended (rewrite completeness): every token the scanner reports has an entry in
the mapping, and the last token with a given text t has the entry (t, p) with p the local
path resolved for it. When the mapping is separated (every key ends in its only closing
parenthesis, no local path contains one, entries with different keys do not interfere),
then for every entry (t, p) the content returned by `cssProcessor` contains "url(p)" if
the stylesheet contained t, and contains no occurrence of t unless the replacement of
that entry brings its key back (t without its parenthesis and "url(p" being suffixes of
one another). -/
theorem rewrite_complete (d : Deps W) (s : Scraper W) (baseURL : URL) (buf : String)
    (hperm : (d.rangeOrder s.world (cssMapping d baseURL buf)).Perm
      (cssMapping d baseURL buf))
    (hsep : Separated (cssMapping d baseURL buf)) :
    (∀ c ∈ d.cssProcess baseURL buf, ∃ p, (c.tokenValue, p) ∈ cssMapping d baseURL buf) ∧
    (∀ pre c post, d.cssProcess baseURL buf = pre ++ c :: post →
      (∀ c' ∈ post, c'.tokenValue ≠ c.tokenValue) →
      (c.tokenValue, resolvedPath d c) ∈ cssMapping d baseURL buf) ∧
    ∀ e ∈ cssMapping d baseURL buf,
      (e.1.data <:+: buf.data →
        ("url(" ++ e.2 ++ ")").data <:+: (cssProcessor d s baseURL buf).1.data) ∧
      (¬ keyBody e.1 <:+ fixedBody e.2 → ¬ fixedBody e.2 <:+ keyBody e.1 →
        ¬ e.1.data <:+: (cssProcessor d s baseURL buf).1.data) := by
  refine ⟨fun c hc => cssMapping_covers d baseURL buf c hc,
    fun pre c post hcalls hlast => cssMapping_last d baseURL buf pre c post hcalls hlast,
    fun e he => ?_⟩
  have hlen : (cssMapping d baseURL buf).length ≠ 0 := by
    intro h0
    rw [List.length_eq_zero] at h0
    rw [h0] at he
    simp at he
  rw [cssProcessor_content, if_neg hlen]
  exact cssRewrite_complete _ _ (cssMapping_nodup d baseURL buf) hsep hperm buf e he

/-- Witness of C5 as amended: the token `url(a.png)`, which occurs twice and resolves to
`/assets/a.png`, next to a second token. -/
theorem rewrite_complete_witness :
    Separated (cssMapping assets (page "/style.css")
      "a{background:url(a.png)} b{background:url(b.png)} c{background:url(a.png)}") ∧
    (assets.cssProcess (page "/style.css")
        "a{background:url(a.png)} b{background:url(b.png)} c{background:url(a.png)}" =
      [⟨"url(a.png)", "a.png", page "/a.png"⟩, ⟨"url(b.png)", "b.png", page "/b.png"⟩] ++
        ⟨"url(a.png)", "a.png", page "/a.png"⟩ :: [] ∧
      ("url(a.png)", "/assets/a.png") ∈ cssMapping assets (page "/style.css")
        "a{background:url(a.png)} b{background:url(b.png)} c{background:url(a.png)}") ∧
    "url(a.png)".data <:+:
      "a{background:url(a.png)} b{background:url(b.png)} c{background:url(a.png)}".data ∧
    (¬ keyBody "url(a.png)" <:+ fixedBody "/assets/a.png" ∧
      ¬ fixedBody "/assets/a.png" <:+ keyBody "url(a.png)") ∧
    ("url(" ++ "/assets/a.png" ++ ")").data <:+: (cssProcessor assets fresh
      (page "/style.css")
      "a{background:url(a.png)} b{background:url(b.png)} c{background:url(a.png)}").1.data ∧
    ¬ "url(a.png)".data <:+: (cssProcessor assets fresh (page "/style.css")
      "a{background:url(a.png)} b{background:url(b.png)} c{background:url(a.png)}").1.data :=
  ⟨by decide,
    ⟨by decide,
      (rewrite_complete assets fresh (page "/style.css")
        "a{background:url(a.png)} b{background:url(b.png)} c{background:url(a.png)}"
        (List.Perm.refl _) (by decide)).2.1
        [⟨"url(a.png)", "a.png", page "/a.png"⟩, ⟨"url(b.png)", "b.png", page "/b.png"⟩]
        ⟨"url(a.png)", "a.png", page "/a.png"⟩ [] (by decide) (by simp)⟩,
    by decide, by decide,
    (((rewrite_complete assets fresh (page "/style.css")
      "a{background:url(a.png)} b{background:url(b.png)} c{background:url(a.png)}"
      (List.Perm.refl _) (by decide)).2.2 ("url(a.png)", "/assets/a.png")
      (by decide)).1 (by decide)),
    (((rewrite_complete assets fresh (page "/style.css")
      "a{background:url(a.png)} b{background:url(b.png)} c{background:url(a.png)}"
      (List.Perm.refl _) (by decide)).2.2 ("url(a.png)", "/assets/a.png")
      (by decide)).2 (by decide) (by decide))⟩

set_option maxRecDepth 4000 in
/-- C5 as stated fails, in both halves. The scanner reports the token `url(bg.png)`, its
resolved local path is `bg.png`, and the returned content still contains the original
token text. And in a stylesheet that references `a.png` and `/assets/a.png`, the token
`url(a.png)` resolves to `/assets/a.png`, but the returned content does not contain
`url(/assets/a.png)`: the replacement was itself replaced as the key of the other entry. -/
theorem rewrite_complete_counterexample :
    (site.cssProcess (page "/style.css") "body{background:url(bg.png)}" =
        [⟨"url(bg.png)", "bg.png", page "/bg.png"⟩] ∧
      cssMapping site (page "/style.css") "body{background:url(bg.png)}" =
        [("url(bg.png)", "bg.png")] ∧
      "url(bg.png)".data <:+: (cssProcessor site fresh (page "/style.css")
        "body{background:url(bg.png)}").1.data) ∧
    (assets.cssProcess (page "/style.css")
        "h1{background:url(a.png)} h2{background:url(/assets/a.png)}" =
        [⟨"url(a.png)", "a.png", page "/a.png"⟩,
          ⟨"url(/assets/a.png)", "/assets/a.png", page "/assets/a.png"⟩] ∧
      cssMapping assets (page "/style.css")
        "h1{background:url(a.png)} h2{background:url(/assets/a.png)}" =
        [("url(a.png)", "/assets/a.png"),
          ("url(/assets/a.png)", "/assets//assets/a.png")] ∧
      ¬ "url(/assets/a.png)".data <:+: (cssProcessor assets fresh (page "/style.css")
        "h1{background:url(a.png)} h2{background:url(/assets/a.png)}").1.data) :=
  ⟨⟨by decide, by decide, by decide⟩, ⟨by decide, by decide, by decide⟩⟩

/-- C10 as amended (rewrite determinism): when the mapping built for a stylesheet is
separated (every key ends in its only closing parenthesis, no local path contains one, and
for entries with different keys no key body is a suffix of the other replacement body, of
the other key body, or has the other replacement body as a suffix), the content returned
by `cssProcessor` is the same for every order in which the entries are enumerated. -/
theorem rewrite_order_independent (d : Deps W)
    (order : W → List (String × String) → List (String × String)) (s : Scraper W)
    (baseURL : URL) (buf : String)
    (hsep : Separated (cssMapping d baseURL buf))
    (h1 : (d.rangeOrder s.world (cssMapping d baseURL buf)).Perm (cssMapping d baseURL buf))
    (h2 : (order s.world (cssMapping d baseURL buf)).Perm (cssMapping d baseURL buf)) :
    (cssProcessor { d with rangeOrder := order } s baseURL buf).1 =
      (cssProcessor d s baseURL buf).1 := by
  have hm : cssMapping { d with rangeOrder := order } baseURL buf =
      cssMapping d baseURL buf := rfl
  rw [cssProcessor_content, cssProcessor_content, hm]
  split
  · rfl
  · exact cssRewrite_perm _ _ _ (cssMapping_nodup d baseURL buf) hsep h2 h1 buf

/-- Witness of C10 as amended: two tokens that do not interfere, enumerated in both
orders. -/
theorem rewrite_order_independent_witness :
    Separated (cssMapping assets (page "/style.css")
      "a{background:url(a.png)} b{color:red;background:url(b.png)}") ∧
    (cssProcessor { assets with rangeOrder := fun _ m => m.reverse } fresh (page "/style.css")
        "a{background:url(a.png)} b{color:red;background:url(b.png)}").1 =
      (cssProcessor assets fresh (page "/style.css")
        "a{background:url(a.png)} b{color:red;background:url(b.png)}").1 :=
  ⟨by decide, rewrite_order_independent assets (fun _ m => m.reverse) fresh
    (page "/style.css")
    "a{background:url(a.png)} b{color:red;background:url(b.png)}" (by decide)
    (List.Perm.refl _) (List.reverse_perm _)⟩

/-- C10 as stated fails: the stylesheet references `a.png` and `/assets/a.png`; the
replacement of the first key contains the second key, and the two enumeration orders of
the mapping give different contents. -/
theorem rewrite_order_counterexample :
    cssMapping assets (page "/style.css")
        "a{background:url(a.png)} b{background:url(/assets/a.png)}" =
      [("url(a.png)", "/assets/a.png"), ("url(/assets/a.png)", "/assets//assets/a.png")] ∧
    (cssProcessor assets fresh (page "/style.css")
        "a{background:url(a.png)} b{background:url(/assets/a.png)}").1 =
      "a{background:url(/assets//assets/a.png)} b{background:url(/assets//assets/a.png)}" ∧
    (cssProcessor { assets with rangeOrder := fun _ m => m.reverse } fresh (page "/style.css")
        "a{background:url(a.png)} b{background:url(/assets/a.png)}").1 =
      "a{background:url(/assets/a.png)} b{background:url(/assets//assets/a.png)}" := by
  decide

end Goscrape
